import Mathlib

/-!
Verification of the Adaptive Response Shaping & Query Normalization Engine
of the devops-mcp tool-handler module (`ToolHandlers`), shallowly embedded
in Lean 4.

JavaScript strings are modelled as `List Char` (wrapped in `String` at the
interface).  JavaScript objects used as dictionaries are modelled as
insertion-ordered association lists; `Object.entries` enumeration order
(array-index-like keys first, ascending, then string keys in insertion
order) is modelled explicitly.  `JSON.stringify` of the fetched record
set is external to the shaped fragment and is taken as a parameter
(`resultString`); its UTF-8 byte length (`Buffer.byteLength(·, 'utf8')`)
is computed by the embedded `utf8Len`.
-/

/-- The single-quote character, written by code point to keep source lines
free of quote characters. -/
def squote : Char := Char.ofNat 39

/-- Case-insensitive character comparison as performed by a JavaScript
regex with the `i` flag on ASCII pattern characters (`Char.toLower` is
the ASCII lowering; non-ASCII characters never canonicalize to ASCII in
non-unicode regex mode, which this models faithfully). -/
def ciEqChar (a b : Char) : Bool := a.toLower == b.toLower

/-- Case-sensitive character comparison (plain regex / `String.includes`). -/
def csEqChar (a b : Char) : Bool := a == b

/-- `leadsBy eqc p s` holds when `p` is a prefix of `s` under the
character comparison `eqc` (regex match anchored at the start of `s`). -/
def leadsBy (eqc : Char → Char → Bool) : List Char → List Char → Bool
  | [], _ => true
  | _ :: _, [] => false
  | p :: ps, c :: cs => eqc p c && leadsBy eqc ps cs

/-- Fuelled worker for `replaceAllBy`.  The fuel starts at the length of
the subject string, which always suffices (the scan advances at least one
character per step). -/
def replAux (eqc : Char → Char → Bool) (p rep : List Char) : Nat → List Char → List Char
  | _, [] => []
  | 0, s => s
  | fuel + 1, c :: rest =>
    if leadsBy eqc p (c :: rest) then
      rep ++ replAux eqc p rep fuel (List.drop p.length (c :: rest))
    else
      c :: replAux eqc p rep fuel rest

/-- `String.prototype.replace` with a global regex whose pattern is the
literal `p` (metacharacters escaped in the source): scans left to right,
replaces each non-overlapping occurrence, and resumes after the end of
the match.  `eqc` selects case sensitivity (`i` flag or not). -/
def replaceAllBy (eqc : Char → Char → Bool) (p rep s : List Char) : List Char :=
  if p.isEmpty then s else replAux eqc p rep s.length s

/-- `String.prototype.includes` with needle `p` (generalized over the
character comparison). -/
def containsSeq (eqc : Char → Char → Bool) (p : List Char) : List Char → Bool
  | [] => p.isEmpty
  | c :: rest => leadsBy eqc p (c :: rest) || containsSeq eqc p rest

/-- `occursIn p s`: `p` occurs (case-sensitively) as a contiguous
subsequence of `s`. -/
def occursIn (p s : List Char) : Prop := ∃ u v, s = u ++ p ++ v

/-- UTF-8 encoding of one character (code point), as produced by
`Buffer.from(string)` in Node. -/
def charUtf8Bytes (c : Char) : List Nat :=
  let n := c.toNat
  if n < 128 then [n]
  else if n < 2048 then [192 + n / 64, 128 + n % 64]
  else if n < 65536 then [224 + n / 4096, 128 + n / 64 % 64, 128 + n % 64]
  else [240 + n / 262144, 128 + n / 4096 % 64, 128 + n / 64 % 64, 128 + n % 64]

/-- UTF-8 byte sequence of a string. -/
def utf8Bytes (s : List Char) : List Nat := s.flatMap charUtf8Bytes

/-- `Buffer.byteLength(s, 'utf8')`. -/
def utf8Len (s : String) : Nat := (utf8Bytes s.data).length

/-- The base64 alphabet used by `Buffer.toString('base64')`. -/
def base64Alphabet : List Char :=
  "ABCDEFGHIJKLMNOPQRSTUVWXYZabcdefghijklmnopqrstuvwxyz0123456789+/".data

/-- Character for a 6-bit group. -/
def sixBit (n : Nat) : Char := base64Alphabet.getD n (Char.ofNat 65)

/-- Standard base64 encoding of a byte sequence with `=` padding,
as produced by `Buffer.toString('base64')`. -/
def base64EncodeBytes : List Nat → List Char
  | [] => []
  | [b1] => [sixBit (b1 / 4), sixBit (b1 % 4 * 16), Char.ofNat 61, Char.ofNat 61]
  | [b1, b2] => [sixBit (b1 / 4), sixBit (b1 % 4 * 16 + b2 / 16), sixBit (b2 % 16 * 4), Char.ofNat 61]
  | b1 :: b2 :: b3 :: rest =>
    sixBit (b1 / 4) :: sixBit (b1 % 4 * 16 + b2 / 16) :: sixBit (b2 % 16 * 4 + b3 / 64) ::
      sixBit (b3 % 64) :: base64EncodeBytes rest

/-- `'x'.repeat n` for a single character. -/
def repeatChar (c : Char) (n : Nat) : String := ⟨List.replicate n c⟩

/-- `String.prototype.padStart(n)` (space padding). -/
def padStartStr (s : String) (n : Nat) : String := ⟨List.replicate (n - s.length) ' ' ++ s.data⟩

/-- `String.prototype.padEnd(n)` (space padding). -/
def padEndStr (s : String) (n : Nat) : String := ⟨s.data ++ List.replicate (n - s.length) ' '⟩

/-- `String.prototype.toUpperCase` (ASCII model). -/
def toUpperStr (s : String) : String := ⟨s.data.map Char.toUpper⟩

/-- `Array.prototype.slice(a, b)` with JavaScript index clamping
(negative indices count from the end). -/
def jsSlice (l : List Int) (a b : Int) : List Int :=
  let len : Int := l.length
  let s : Int := if a < 0 then max (len + a) 0 else min a len
  let e : Int := if b < 0 then max (len + b) 0 else min b len
  (l.take e.toNat).drop s.toNat

/-- `Math.ceil(a / b)` for an integer numerator and nonzero integer
denominator (the only use sites pass a nonzero denominator). -/
def ceilDivJs (a b : Int) : Int := -((-a).fdiv b)

/-!  ## Field Reference Normalizer (`ToolHandlers.WIQL_FIELD_ALIASES`,
`ToolHandlers.normalizeWiqlFieldNames`) -/

/-- The alias table, in source (insertion) order.  All keys are plain
string keys, so `Object.entries` enumerates them in this order. -/
def WIQL_FIELD_ALIASES : List (String × String) :=
  [("ClosedDate", "Microsoft.VSTS.Common.ClosedDate"),
   ("ResolvedDate", "Microsoft.VSTS.Common.ResolvedDate"),
   ("ActivatedDate", "Microsoft.VSTS.Common.ActivatedDate"),
   ("StateChangeDate", "Microsoft.VSTS.Common.StateChangeDate"),
   ("Priority", "Microsoft.VSTS.Common.Priority"),
   ("Severity", "Microsoft.VSTS.Common.Severity"),
   ("StackRank", "Microsoft.VSTS.Common.StackRank"),
   ("ValueArea", "Microsoft.VSTS.Common.ValueArea"),
   ("StoryPoints", "Microsoft.VSTS.Scheduling.StoryPoints"),
   ("Effort", "Microsoft.VSTS.Scheduling.Effort"),
   ("OriginalEstimate", "Microsoft.VSTS.Scheduling.OriginalEstimate"),
   ("RemainingWork", "Microsoft.VSTS.Scheduling.RemainingWork"),
   ("CompletedWork", "Microsoft.VSTS.Scheduling.CompletedWork"),
   ("ReproSteps", "Microsoft.VSTS.TCM.ReproSteps"),
   ("SystemInfo", "Microsoft.VSTS.TCM.SystemInfo"),
   ("Title", "System.Title"),
   ("State", "System.State"),
   ("AssignedTo", "System.AssignedTo"),
   ("CreatedDate", "System.CreatedDate"),
   ("CreatedBy", "System.CreatedBy"),
   ("ChangedDate", "System.ChangedDate"),
   ("ChangedBy", "System.ChangedBy"),
   ("WorkItemType", "System.WorkItemType"),
   ("Tags", "System.Tags"),
   ("IterationPath", "System.IterationPath"),
   ("AreaPath", "System.AreaPath"),
   ("Description", "System.Description"),
   ("History", "System.History"),
   ("TeamProject", "System.TeamProject"),
   ("Parent", "System.Parent"),
   ("BoardColumn", "System.BoardColumn"),
   ("BoardColumnDone", "System.BoardColumnDone")]

/-- One loop iteration of `normalizeWiqlFieldNames` for the alias pair
`(a, full)`.  Pattern 1 rewrites `[a]` (case-insensitive) to `[full]`;
its negative lookahead `(?!System\.|Microsoft\.VSTS\.)` can never fire
because no alias begins with either namespace, so it is not modelled.
Pattern 2, applied only when `full` lies in the Microsoft.VSTS namespace,
rewrites `[System.a]` (case-insensitive) to `[full]`.  The
`pattern.test(...)` guards in the source only skip a replacement that
would be the identity anyway, so they are functionally transparent.
The `replacementCount` diagnostics are side effects only. -/
def wiqlAliasPass (s : List Char) (a full : String) : List Char :=
  let s1 := replaceAllBy ciEqChar ('[' :: a.data ++ [']']) ('[' :: full.data ++ [']']) s
  if leadsBy csEqChar "Microsoft.VSTS.".data full.data then
    replaceAllBy ciEqChar ('[' :: "System.".data ++ a.data ++ [']']) ('[' :: full.data ++ [']']) s1
  else s1

/-- `ToolHandlers.normalizeWiqlFieldNames` on character lists: the alias
rewrites applied sequentially in table order. -/
def normalizeWiqlChars (s : List Char) : List Char :=
  WIQL_FIELD_ALIASES.foldl (fun acc af => wiqlAliasPass acc af.1 af.2) s

/-- `ToolHandlers.normalizeWiqlFieldNames`. -/
def normalizeWiqlFieldNames (s : String) : String := ⟨normalizeWiqlChars s.data⟩

/-!  ## Record model and Summary Renderer
(`ToolHandlers.formatWorkItemsSummary`) -/

/-- A JavaScript field value as it occurs on fetched work items: a
string, a number (story points are modelled as integers), an identity
object carrying a `displayName`, or `null`.  An absent field is
`Option.none` at use sites. -/
inductive JsValue where
  | str (s : String)
  | num (n : Int)
  | ident (displayName : String)
  | jsNull
deriving DecidableEq, Repr

/-- A fetched work item: numeric id plus a field dictionary (JavaScript
object with unique keys, insertion-ordered). -/
structure WorkItem where
  id : Int
  fields : List (String × JsValue)
deriving DecidableEq, Repr

/-- `item.fields[k]` (`none` = `undefined`). -/
def lookupField (w : WorkItem) (k : String) : Option JsValue :=
  (w.fields.find? (fun e => e.1 == k)).map (fun e => e.2)

/-- JavaScript truthiness of a field value. -/
def jsTruthy : JsValue → Bool
  | .str s => s ≠ ""
  | .num n => n ≠ 0
  | .ident _ => true
  | .jsNull => false

/-- JavaScript `ToString` of a field value, as used when a value becomes
an object property key or is interpolated into a template literal. -/
def jsToStr : Option JsValue → String
  | some (.str s) => s
  | some (.num n) => toString n
  | some (.ident _) => "[object Object]"
  | some .jsNull => "null"
  | none => "undefined"

/-- `x?.displayName || dflt`: the display name of an identity value when
present and nonempty, else the default sentinel. -/
def identDisplayOr (v : Option JsValue) (dflt : String) : String :=
  match v with
  | some (.ident d) => if d == "" then dflt else d
  | _ => dflt

/-- `item.fields[k] || 'Unknown'`-style key derivation: a truthy value
becomes a property key via `ToString`, a falsy or absent one yields the
sentinel. -/
def groupKeyOf (v : Option JsValue) (sentinel : String) : String :=
  match v with
  | some v => if jsTruthy v then jsToStr (some v) else sentinel
  | none => sentinel

/-- The per-item record pushed into a group by `formatWorkItemsSummary`
(fields `title`, `type`, `state` hold the raw looked-up values;
`points` holds `points || 'N/A'`). -/
structure SummaryItem where
  id : Int
  title : Option JsValue
  type : Option JsValue
  state : Option JsValue
  assigned : String
  points : JsValue
deriving DecidableEq, Repr

/-- The group key chosen by `formatWorkItemsSummary` for one item. -/
def summaryGroupKey (groupBy : String) (item : WorkItem) : String :=
  if groupBy == "System.AssignedTo" then
    identDisplayOr (lookupField item "System.AssignedTo") "Unassigned"
  else if groupBy == "System.WorkItemType" then
    groupKeyOf (lookupField item "System.WorkItemType") "Unknown"
  else
    groupKeyOf (lookupField item groupBy) "Unknown"

/-- The summary record built for one item. -/
def mkSummaryItem (item : WorkItem) : SummaryItem :=
  let points := lookupField item "Microsoft.VSTS.Scheduling.StoryPoints"
  { id := item.id
    title := lookupField item "System.Title"
    type := lookupField item "System.WorkItemType"
    state := lookupField item "System.State"
    assigned := identDisplayOr (lookupField item "System.AssignedTo") "Unassigned"
    points := match points with
      | some v => if jsTruthy v then v else .str "N/A"
      | none => .str "N/A" }

/-- `groups[k].push(it)`, creating `groups[k]` on first use (`if
(!groups[groupKey]) groups[groupKey] = []`).  Re-assigning an existing
key keeps its position; a new key is appended. -/
def pushGroup (l : List (String × List SummaryItem)) (k : String) (it : SummaryItem) :
    List (String × List SummaryItem) :=
  if l.any (fun e => e.1 == k) then
    l.map (fun e => if e.1 == k then (e.1, e.2 ++ [it]) else e)
  else
    l ++ [(k, [it])]

/-- The grouping loop of `formatWorkItemsSummary`: partitions the items
into the `groups` object, in encounter order of the keys. -/
def buildSummaryGroups (workItems : List WorkItem) (groupBy : String) :
    List (String × List SummaryItem) :=
  workItems.foldl (fun acc item => pushGroup acc (summaryGroupKey groupBy item) (mkSummaryItem item)) []

/-- `totalPoints`: sum of the numeric story-point values (non-numbers
contribute nothing). -/
def sumPoints (workItems : List WorkItem) : Int :=
  workItems.foldl (fun acc item =>
    match lookupField item "Microsoft.VSTS.Scheduling.StoryPoints" with
    | some (.num n) => acc + n
    | _ => acc) 0

/-- Decimal digit parser on character lists (same semantics as
`String.toNat?`: every character must be a decimal digit and the string
must be nonempty). -/
def listToNatAux : List Char → Nat → Option Nat
  | [], acc => some acc
  | c :: t, acc => if c.isDigit then listToNatAux t (acc * 10 + (c.toNat - 48)) else none

/-- Decimal value of a character list, when it is all digits. -/
def listToNat? (l : List Char) : Option Nat :=
  match l with
  | [] => none
  | _ => listToNatAux l 0

/-- Whether a string is an array-index-like property key (the canonical
decimal form of an integer below 2^32 - 1).  JavaScript objects
enumerate such keys first, in ascending numeric order, regardless of
insertion order. -/
def isArrayIndexKey (s : String) : Bool :=
  match listToNat? s.data with
  | some n => toString n == s && n < 4294967295
  | none => false

/-- Numeric value of an index-like key (0 for others; unused then). -/
def keyNum (s : String) : Nat := (listToNat? s.data).getD 0

/-- Insert into a list sorted ascending by `keyNum` of the key. -/
def insertAscByKeyNum (x : String × List SummaryItem) :
    List (String × List SummaryItem) → List (String × List SummaryItem)
  | [] => [x]
  | h :: t => if keyNum x.1 < keyNum h.1 then x :: h :: t else h :: insertAscByKeyNum x t

/-- Sort ascending by numeric key value. -/
def sortAscByKeyNum : List (String × List SummaryItem) → List (String × List SummaryItem)
  | [] => []
  | x :: xs => insertAscByKeyNum x (sortAscByKeyNum xs)

/-- `Object.entries` enumeration order for a plain object whose
properties were created in the order of the association list:
array-index-like keys first in ascending numeric order, then the
remaining string keys in insertion order. -/
def jsObjectEntries (l : List (String × List SummaryItem)) : List (String × List SummaryItem) :=
  sortAscByKeyNum (l.filter (fun e => isArrayIndexKey e.1)) ++
    l.filter (fun e => !isArrayIndexKey e.1)

/-- Stable insertion for the descending-by-count sort: an element moves
before exactly those earlier elements with a strictly smaller count, so
equal counts keep their relative order (Array.prototype.sort is
stable). -/
def insertCountDesc (x : String × List SummaryItem) :
    List (String × List SummaryItem) → List (String × List SummaryItem)
  | [] => [x]
  | h :: t => if h.2.length ≤ x.2.length then x :: h :: t else h :: insertCountDesc x t

/-- `Object.entries(groups).sort((a, b) => b[1].length - a[1].length)`:
a stable sort by item count, descending. -/
def sortCountDesc : List (String × List SummaryItem) → List (String × List SummaryItem)
  | [] => []
  | x :: xs => insertCountDesc x (sortCountDesc xs)

/-- The sorted group list over which the Summary Renderer iterates. -/
def sortedSummaryGroups (workItems : List WorkItem) (groupBy : String) :
    List (String × List SummaryItem) :=
  sortCountDesc (jsObjectEntries (buildSummaryGroups workItems groupBy))

/-- Points of a stored summary item, when numeric. -/
def storedPoints : JsValue → Int
  | .num n => n
  | _ => 0

/-- Group story-point rollup (`items.reduce(...)`). -/
def groupPoints (items : List SummaryItem) : Int :=
  items.foldl (fun acc it => acc + storedPoints it.points) 0

/-- The `pointsStr` column of an item line. -/
def pointsDisplay : JsValue → String
  | .num n => toString n ++ " pts"
  | _ => "N/A"

/-- The truncated-title column (`substring(0, 47) + '...'` past 50
characters).  `item.title` is a string on real records; the model
totalizes non-string values through `ToString`. -/
def titleDisplay (v : Option JsValue) : String :=
  let t := jsToStr v
  if t.length > 50 then ⟨t.data.take 47⟩ ++ "..." else t

/-- One item line of the summary (with the conditional State/Assigned
trailers). -/
def summaryItemLine (groupBy : String) (it : SummaryItem) : String :=
  "  #" ++ padStartStr (toString it.id) 5 ++ " - " ++ padEndStr (jsToStr it.type) 20 ++
    " - " ++ padEndStr (pointsDisplay it.points) 8 ++ " - " ++ titleDisplay it.title ++ "\n" ++
  (if groupBy ≠ "System.State" then "          State: " ++ jsToStr it.state else "") ++
  (if groupBy ≠ "System.AssignedTo" then "  Assigned: " ++ it.assigned ++ "\n" else "\n")

/-- One group block of the summary (capped at 10 item lines plus the
`... and N more` trailer). -/
def summaryGroupBlock (groupBy : String) (g : String × List SummaryItem) : String :=
  "\n" ++ toUpperStr g.1 ++ " (" ++ toString g.2.length ++ " items, " ++
    toString (groupPoints g.2) ++ " pts)\n" ++ repeatChar '-' 80 ++ "\n" ++
  String.join ((g.2.take 10).map (summaryItemLine groupBy)) ++
  (if g.2.length > 10 then "  ... and " ++ toString (g.2.length - 10) ++ " more\n" else "")

/-- `ToolHandlers.formatWorkItemsSummary`. -/
def formatWorkItemsSummary (workItems : List WorkItem) (groupByArg : Option String) : String :=
  let groupBy := match groupByArg with
    | some g => if g == "" then "System.State" else g
    | none => "System.State"
  repeatChar '=' 80 ++ "\n" ++
  "Work Items Summary - Grouped by " ++ groupBy ++ "\n" ++
  "(" ++ toString workItems.length ++ " items, " ++ toString (sumPoints workItems) ++
    " story points)\n" ++
  repeatChar '=' 80 ++ "\n\n" ++
  String.join ((sortedSummaryGroups workItems groupBy).map (summaryGroupBlock groupBy))

/-!  ## Pagination Slicer (`ToolHandlers.getWorkItems`, WIQL branch) -/

/-- The pagination metadata object attached to a paginated result. -/
structure PaginationMetadata where
  page : Int
  pageSize : Int
  totalItems : Nat
  totalPages : Int
  hasNextPage : Bool
  hasPreviousPage : Bool
deriving DecidableEq, Repr

/-- `const page = args.page || 1`: absent or `0` (falsy) becomes `1`. -/
def pageOr1 (argPage : Option Int) : Int :=
  match argPage with
  | some p => if p == 0 then 1 else p
  | none => 1

/-- `const pageSize = args.pageSize || (args.page ? 50 : undefined)`. -/
def pageSizeOpt (argPage argPageSize : Option Int) : Option Int :=
  let fallback : Option Int :=
    match argPage with
    | some p => if p ≠ 0 then some 50 else none
    | none => none
  match argPageSize with
  | some z => if z ≠ 0 then some z else fallback
  | none => fallback

/-- The pagination block of `getWorkItems` (source lines 713-733): slices
the identifier list and computes the metadata.  Returns the (possibly
sliced) ids plus `paginationMetadata` (`none` when the `if (page > 1 ||
pageSize)` guard does not fire). -/
def paginateIds (argPage argPageSize : Option Int) (ids : List Int) :
    List Int × Option PaginationMetadata :=
  let page := pageOr1 argPage
  let psOpt := pageSizeOpt argPage argPageSize
  if page > 1 ∨ psOpt.isSome then
    let actualPageSize := psOpt.getD 50
    let start := (page - 1) * actualPageSize
    let stop := start + actualPageSize
    let paginatedIds := jsSlice ids start stop
    (paginatedIds,
     some { page := page
            pageSize := actualPageSize
            totalItems := ids.length
            totalPages := ceilDivJs ids.length actualPageSize
            hasNextPage := decide (stop < (ids.length : Int))
            hasPreviousPage := decide (page > 1) })
  else
    (ids, none)

/-!  ## Response Size Arbiter (`ToolHandlers.getWorkItems`, lines
779-869).  The serialized result `resultString =
JSON.stringify(result, null, 2)` is taken as a parameter; `sizeBytes`
is its UTF-8 byte length, exactly as computed by
`Buffer.byteLength(resultString, 'utf8')`. -/

/-- The caller flags consulted by the arbiter. -/
structure WIArgs where
  format : Option String
  force : Option Bool
  groupBy : Option String
  compact : Bool
  fields : Option (List String)
deriving DecidableEq, Repr

/-- The `_metadata` block attached to a shaped response.  The
`truncated` constructor corresponds to the object `{originalSize,
truncated: true, reason, itemCount, suggestions}`; `formatChoice` to
`{format: 'summary', totalItems, estimatedFullSize, hint}`; `sizeWarning`
to `{size, warning: 'large-result', suggestions}`; `noMeta` to a response
without `_metadata`. -/
inductive WIMeta where
  | truncated (originalSize : Nat) (reason : String) (itemCount : Nat) (suggestions : List String)
  | formatChoice (totalItems : Nat) (estimatedFullSize : Nat) (hint : String)
  | sizeWarning (size : Nat) (warning : String) (suggestions : List String)
  | noMeta
deriving DecidableEq, Repr

/-- A shaped get-work-items response: the single text content item plus
the metadata block. -/
structure WIResponse where
  text : String
  meta : WIMeta
deriving DecidableEq, Repr

def TOKEN_LIMIT : Nat := 200000

def SIZE_WARNING_THRESHOLD : Nat := 150000

def SUMMARY_THRESHOLD_ITEMS : Nat := 20

/-- The remediation list of the hard-limit (truncated) branch. -/
def truncatedSuggestions : List String :=
  ["Use compact: true to reduce user field sizes (70% reduction)",
   "Add format: \"summary\" for readable overview",
   "Specify only needed fields to reduce response size",
   "Use pagination (coming in Phase 2)"]

/-- `!args.format` (absent or empty string). -/
def formatFalsy (args : WIArgs) : Bool :=
  match args.format with
  | none => true
  | some f => f == ""

/-- The conditionally assembled suggestion list of the soft-warning
branch.  `result.value?.[0]?.fields` is an object (truthy) whenever the
value list is nonempty, so that conjunct reduces to nonemptiness; the
interpolated count is `Object.keys(fields).length` (the field dictionary
has unique keys). -/
def warnSuggestions (args : WIArgs) (value : List WorkItem) : List String :=
  (if !args.compact then ["Add compact: true to reduce user field sizes (70% reduction)"] else []) ++
  (if formatFalsy args then ["Add format: \"summary\" for readable summary"] else []) ++
  (match args.fields, value with
   | none, w :: _ =>
     ["Specify only needed fields (" ++ toString w.fields.length ++ " fields returned)"]
   | _, _ => [])

/-- The size-based shaping decision of `getWorkItems` (lines 779-869),
run after optional compaction, on the fetched record set `value` and its
serialization `resultString`. -/
def shapeWorkItemsResponse (args : WIArgs) (value : List WorkItem) (resultString : String) :
    WIResponse :=
  let sizeBytes := utf8Len resultString
  let useSummary := args.format == some "summary" ||
    decide (value.length > SUMMARY_THRESHOLD_ITEMS) ||
    decide (sizeBytes > SIZE_WARNING_THRESHOLD)
  if sizeBytes > TOKEN_LIMIT ∧ args.format ≠ some "json" ∧ args.force ≠ some true then
    { text := formatWorkItemsSummary value args.groupBy
      meta := .truncated sizeBytes "exceeded-token-limit" value.length truncatedSuggestions }
  else if useSummary ∧ value ≠ [] ∧ args.format ≠ some "json" then
    { text := formatWorkItemsSummary value args.groupBy
      meta := .formatChoice value.length sizeBytes
        "Use format: \"json\" with force: true for full JSON output" }
  else if sizeBytes > SIZE_WARNING_THRESHOLD then
    { text := resultString
      meta := .sizeWarning sizeBytes "large-result" (warnSuggestions args value) }
  else
    { text := resultString, meta := .noMeta }

/-!  ## PAT sanitization and tool-call dispatch
(`ToolHandlers.sanitizePat`, `sanitizeResponse`, `handleToolCall`) -/

/-- The Azure DevOps connection configuration. -/
structure AzureDevOpsConfig where
  organizationUrl : String
  project : String
  pat : String
deriving DecidableEq, Repr

/-- The redaction placeholder for the raw PAT. -/
def patRedacted : String := "[PAT_REDACTED]"

/-- The redaction placeholder for the base64-encoded PAT. -/
def patB64Redacted : String := "[PAT_BASE64_REDACTED]"

/-- `Buffer.from(':' + pat).toString('base64')` — the Authorization
header form of the PAT. -/
def base64Pat (pat : String) : String :=
  ⟨base64EncodeBytes (utf8Bytes (':' :: pat.data))⟩

/-- `ToolHandlers.sanitizePat`: with no configuration or a falsy (empty)
PAT the text passes through; otherwise every occurrence of the raw PAT,
then every occurrence of its base64 form, is replaced by the respective
placeholder.  The `includes` guards skip a replacement pass that would be
the identity. -/
def sanitizePat (cfg : Option AzureDevOpsConfig) (text : String) : String :=
  match cfg with
  | none => text
  | some c =>
    if c.pat == "" then text
    else
      let p := c.pat.data
      let s1 := if containsSeq csEqChar p text.data then
          replaceAllBy csEqChar p patRedacted.data text.data
        else text.data
      let b := (base64Pat c.pat).data
      let s2 := if containsSeq csEqChar b s1 then
          replaceAllBy csEqChar b patB64Redacted.data s1
        else s1
      ⟨s2⟩

/-- A content item of a tool response (`other` covers non-text items,
which `sanitizeResponse` passes through unchanged). -/
inductive ContentItem where
  | text (s : String)
  | other
deriving DecidableEq, Repr

/-- A tool response envelope. -/
structure ToolResponse where
  content : List ContentItem
  isError : Bool
deriving DecidableEq, Repr

/-- `ToolHandlers.sanitizeResponse`: sanitizes every text content item. -/
def sanitizeResponse (cfg : Option AzureDevOpsConfig) (r : ToolResponse) : ToolResponse :=
  { r with content := r.content.map (fun item =>
      match item with
      | .text s => .text (sanitizePat cfg s)
      | .other => .other) }

/-- Outcome of dispatching the named tool inside the `try` block: a
successful response, a thrown `Error` with its message, or a thrown
non-`Error` value.  The unknown-tool `throw` is an `errMsg` outcome. -/
inductive ToolOutcome where
  | ok (r : ToolResponse)
  | errMsg (m : String)
  | errNonError
deriving DecidableEq, Repr

/-- `typeof name === 'string' ? name.replace(/[\r\n\t]/g, '_') :
'unknown'`. -/
def sanitizeToolName : Option String → String
  | some n => ⟨n.data.map (fun ch =>
      if ch == Char.ofNat 13 ∨ ch == Char.ofNat 10 ∨ ch == Char.ofNat 9 then
        Char.ofNat 95
      else ch)⟩
  | none => "unknown"

/-- `ToolHandlers.handleToolCall`, for a request that carries a `params`
object: throws (`Except.error`) only when no configuration is set;
otherwise wraps the dispatch outcome, sanitizing every response and
converting a thrown value into an `isError` response whose text is built
from the sanitized tool name and the sanitized error message. -/
def handleToolCall (cfg : Option AzureDevOpsConfig) (name : Option String)
    (outcome : ToolOutcome) : Except String ToolResponse :=
  match cfg with
  | none => .error "No Azure DevOps configuration available"
  | some c =>
    match outcome with
    | .ok r => .ok (sanitizeResponse (some c) r)
    | .errMsg m =>
      .ok (sanitizeResponse (some c)
        { content := [.text ("Error executing " ++ sanitizeToolName name ++ ": " ++
            sanitizePat (some c) m)]
          isError := true })
    | .errNonError =>
      .ok (sanitizeResponse (some c)
        { content := [.text ("Error executing " ++ sanitizeToolName name ++ ": " ++
            "Unknown error")]
          isError := true })

/-!  ## Infrastructure: properties of the replace-all scanner -/

/-- `leadsP q s`: `q` is literally a prefix of `s`. -/
def leadsP (q s : List Char) : Prop := ∃ v, s = q ++ v

theorem replAux_nil (eqc : Char → Char → Bool) (p rep : List Char) (f : Nat) :
    replAux eqc p rep f [] = [] := by
  cases f <;> rfl

theorem replAux_fuel (eqc : Char → Char → Bool) (p rep : List Char) (hp : p ≠ []) :
    ∀ (n : Nat) (s : List Char) (f g : Nat), s.length ≤ n → s.length ≤ f → s.length ≤ g →
      replAux eqc p rep f s = replAux eqc p rep g s := by
  have hplen : 1 ≤ p.length := by
    cases p with
    | nil => exact absurd rfl hp
    | cons a l => simp
  intro n
  induction n with
  | zero =>
    intro s f g hn _ _
    have hs : s = [] := List.eq_nil_of_length_eq_zero (Nat.le_zero.mp hn)
    subst hs
    rw [replAux_nil, replAux_nil]
  | succ n ih =>
    intro s f g hn hf hg
    match s, f, g with
    | [], f, g => rw [replAux_nil, replAux_nil]
    | c :: rest, 0, _ => exact absurd hf (by simp)
    | c :: rest, _ + 1, 0 => exact absurd hg (by simp)
    | c :: rest, f + 1, g + 1 =>
      simp only [replAux]
      have hrest : rest.length ≤ n := by
        simp only [List.length_cons] at hn; omega
      have hfr : rest.length ≤ f := by
        simp only [List.length_cons] at hf; omega
      have hgr : rest.length ≤ g := by
        simp only [List.length_cons] at hg; omega
      split
      · have hd : (List.drop p.length (c :: rest)).length ≤ rest.length := by
          simp only [List.length_drop, List.length_cons]
          omega
        rw [ih (List.drop p.length (c :: rest)) f g (le_trans hd hrest)
          (le_trans hd hfr) (le_trans hd hgr)]
      · rw [ih rest f g hrest hfr hgr]

theorem replaceAllBy_nil (eqc : Char → Char → Bool) (p rep : List Char) :
    replaceAllBy eqc p rep [] = [] := by
  unfold replaceAllBy
  split
  · rfl
  · exact replAux_nil eqc p rep 0

theorem replaceAllBy_eq_replAux (eqc : Char → Char → Bool) (p rep : List Char) (hp : p ≠ [])
    (s : List Char) (f : Nat) (hf : s.length ≤ f) :
    replAux eqc p rep f s = replaceAllBy eqc p rep s := by
  have hpe : p.isEmpty = false := by
    cases p with
    | nil => exact absurd rfl hp
    | cons a l => rfl
  unfold replaceAllBy
  simp only [hpe, Bool.false_eq_true, if_false]
  exact replAux_fuel eqc p rep hp f s f s.length hf hf (le_refl _)

theorem replaceAllBy_cons (eqc : Char → Char → Bool) (p rep : List Char) (hp : p ≠ [])
    (c : Char) (rest : List Char) :
    replaceAllBy eqc p rep (c :: rest) =
      if leadsBy eqc p (c :: rest) then
        rep ++ replaceAllBy eqc p rep (List.drop p.length (c :: rest))
      else
        c :: replaceAllBy eqc p rep rest := by
  have hplen : 1 ≤ p.length := by
    cases p with
    | nil => exact absurd rfl hp
    | cons a l => simp
  rw [← replaceAllBy_eq_replAux eqc p rep hp (c :: rest) (rest.length + 1) (by simp)]
  show replAux eqc p rep (rest.length + 1) (c :: rest) = _
  conv_lhs => rw [replAux]
  split
  · congr 1
    exact replaceAllBy_eq_replAux eqc p rep hp (List.drop p.length (c :: rest)) rest.length
      (by simp only [List.length_drop, List.length_cons]; omega)
  · congr 1
    exact replaceAllBy_eq_replAux eqc p rep hp rest rest.length (le_refl _)

theorem leadsBy_cs_iff (p s : List Char) : leadsBy csEqChar p s = true ↔ leadsP p s := by
  induction p generalizing s with
  | nil =>
    simp only [leadsBy, leadsP]
    constructor
    · intro _; exact ⟨s, by simp⟩
    · intro _; trivial
  | cons a ps ih =>
    cases s with
    | nil =>
      simp only [leadsBy, leadsP]
      constructor
      · intro h; exact absurd h (by simp)
      · rintro ⟨v, hv⟩; exact absurd hv (by simp)
    | cons c cs =>
      simp only [leadsBy, Bool.and_eq_true, csEqChar, beq_iff_eq, ih, leadsP]
      constructor
      · rintro ⟨rfl, v, rfl⟩; exact ⟨v, rfl⟩
      · rintro ⟨v, hv⟩
        injection hv with h1 h2
        exact ⟨h1.symm, v, h2⟩

theorem occursIn_cons (p : List Char) (c : Char) (t : List Char) :
    occursIn p (c :: t) ↔ leadsP p (c :: t) ∨ occursIn p t := by
  constructor
  · rintro ⟨u, v, huv⟩
    cases u with
    | nil => exact Or.inl ⟨v, by simpa using huv⟩
    | cons a u2 =>
      injection huv with h1 h2
      exact Or.inr ⟨u2, v, h2⟩
  · rintro (⟨v, hv⟩ | ⟨u, v, huv⟩)
    · exact ⟨[], v, by simpa using hv⟩
    · exact ⟨c :: u, v, by simp [huv]⟩

theorem containsSeq_cs_iff (p s : List Char) : containsSeq csEqChar p s = true ↔ occursIn p s := by
  induction s with
  | nil =>
    simp only [containsSeq, List.isEmpty_iff]
    constructor
    · rintro rfl; exact ⟨[], [], rfl⟩
    · rintro ⟨u, v, huv⟩
      have h2 : (u ++ p) ++ v = [] := huv.symm
      rcases List.append_eq_nil.mp h2 with ⟨h3, -⟩
      exact (List.append_eq_nil.mp h3).2
  | cons c rest ih =>
    simp only [containsSeq, Bool.or_eq_true, leadsBy_cs_iff, ih, occursIn_cons]

instance occursInDecidable (p s : List Char) : Decidable (occursIn p s) :=
  decidable_of_iff (containsSeq csEqChar p s = true) (containsSeq_cs_iff p s)

theorem occursIn_append_right (p A B : List Char) (h : occursIn p B) : occursIn p (A ++ B) := by
  obtain ⟨u, v, rfl⟩ := h
  exact ⟨A ++ u, v, by simp⟩

theorem occursIn_append_left (p A B : List Char) (h : occursIn p A) : occursIn p (A ++ B) := by
  obtain ⟨u, v, rfl⟩ := h
  exact ⟨u, v ++ B, by simp⟩

theorem occursIn_drop (p : List Char) (n : Nat) (s : List Char) (h : occursIn p (List.drop n s)) :
    occursIn p s := by
  have h2 := occursIn_append_right p (List.take n s) (List.drop n s) h
  rwa [List.take_append_drop] at h2

/-- Decomposition of an occurrence in an appended string: it lies in the
left part, in the right part, or spans the boundary. -/
theorem occursIn_append_split (p A B : List Char) (h : occursIn p (A ++ B)) :
    occursIn p A ∨ occursIn p B ∨
      ∃ p1 p2, p = p1 ++ p2 ∧ p1 ≠ [] ∧ p2 ≠ [] ∧ (∃ u, A = u ++ p1) ∧ (∃ v, B = p2 ++ v) := by
  induction A with
  | nil => exact Or.inr (Or.inl (by simpa using h))
  | cons a A2 ih =>
    rw [List.cons_append, occursIn_cons] at h
    rcases h with ⟨v, hv⟩ | h2
    · -- p is a prefix of (a :: A2) ++ B
      have hv2 : p ++ v = (a :: A2) ++ B := by simpa using hv.symm
      rcases List.append_eq_append_iff.mp hv2 with ⟨e, he1, he2⟩ | ⟨c2, hc1, hc2⟩
      · -- a :: A2 = p ++ e : p is a prefix of A
        left
        exact ⟨[], e, by simpa using he1⟩
      · -- p = (a :: A2) ++ c2
        cases c2 with
        | nil =>
          left
          exact ⟨[], [], by simp [hc1]⟩
        | cons e0 es =>
          right; right
          refine ⟨a :: A2, e0 :: es, hc1, by simp, by simp, ⟨[], rfl⟩, ⟨v, ?_⟩⟩
          -- from hv2 : p ++ v = (a :: A2) ++ B and hc1 : p = (a :: A2) ++ (e0 :: es)
          have h3 : (a :: A2) ++ ((e0 :: es) ++ v) = (a :: A2) ++ B := by
            rw [← List.append_assoc, ← hc1, hv2]
          exact (List.append_inj_right h3 rfl).symm
    · rcases ih h2 with hA | hB | ⟨p1, p2, hp, h1, h2n, ⟨u, hu⟩, hvB⟩
      · left
        obtain ⟨u, v, huv⟩ := hA
        exact ⟨a :: u, v, by simp [huv]⟩
      · exact Or.inr (Or.inl hB)
      · right; right
        exact ⟨p1, p2, hp, h1, h2n, ⟨a :: u, by simp [hu]⟩, hvB⟩

/-- A nonempty suffix of a string ending in `]` contains `]`. -/
theorem mem_of_suffix_ends (q1 A r1 : List Char) (hq : q1 ≠ [])
    (hA : ∃ u, A = u ++ q1) (hr : A = r1 ++ [']']) : ']' ∈ q1 := by
  obtain ⟨u, rfl⟩ := hA
  have h2 : q1.dropLast ++ [q1.getLast hq] = q1 := List.dropLast_append_getLast hq
  have h3 : (u ++ q1.dropLast) ++ [q1.getLast hq] = r1 ++ [']'] := by
    rw [List.append_assoc, h2, hr]
  have h4 : [q1.getLast hq] = [(']' : Char)] := by
    apply List.append_inj_right h3
    have h5 := congrArg List.length h3
    simp only [List.length_append, List.length_cons, List.length_nil] at h5
    simp only [List.length_append]
    omega
  have h6 : q1.getLast hq = ']' := by injection h4
  rw [← h2, h6]
  simp

theorem occursIn_nil (p : List Char) (h : occursIn p []) : p = [] := by
  obtain ⟨u, v, huv⟩ := h
  have h2 : (u ++ p) ++ v = [] := huv.symm
  rcases List.append_eq_nil.mp h2 with ⟨h3, -⟩
  exact (List.append_eq_nil.mp h3).2

theorem leadsP_occursIn (q s : List Char) (h : leadsP q s) : occursIn q s := by
  obtain ⟨v, hv⟩ := h
  exact ⟨[], v, by simpa using hv⟩

/-- Prefix transfer: a bracket-free prefix of the scanner's output is
already a prefix of the input (the replacement text starts with `[`, so
a bracket-free prefix can only consist of copied characters). -/
theorem leadsP_replaceAll (p rep : List Char) (hp : p ≠ []) (r2 : List Char)
    (hrep : rep = '[' :: r2) :
    ∀ (n : Nat) (s : List Char), s.length ≤ n → ∀ q, q ≠ [] → ('[' : Char) ∉ q →
      leadsP q (replaceAllBy csEqChar p rep s) → leadsP q s := by
  intro n
  induction n with
  | zero =>
    intro s hn q hq hbr hld
    have hs : s = [] := List.eq_nil_of_length_eq_zero (Nat.le_zero.mp hn)
    subst hs
    rw [replaceAllBy_nil] at hld
    obtain ⟨v, hv⟩ := hld
    cases q with
    | nil => exact absurd rfl hq
    | cons a l => exact absurd hv (by simp)
  | succ n ih =>
    intro s hn q hq hbr hld
    cases s with
    | nil =>
      rw [replaceAllBy_nil] at hld
      obtain ⟨v, hv⟩ := hld
      cases q with
      | nil => exact absurd rfl hq
      | cons a l => exact absurd hv (by simp)
    | cons c rest =>
      rw [replaceAllBy_cons csEqChar p rep hp] at hld
      by_cases hm : leadsBy csEqChar p (c :: rest) = true
      · rw [if_pos hm] at hld
        obtain ⟨v, hv⟩ := hld
        cases q with
        | nil => exact absurd rfl hq
        | cons qh qt =>
          rw [hrep] at hv
          have hv2 : '[' :: (r2 ++ replaceAllBy csEqChar p ('[' :: r2) (List.drop p.length (c :: rest))) =
              qh :: (qt ++ v) := by simpa using hv
          injection hv2 with h1 h2
          exact absurd (h1 ▸ List.mem_cons_self '[' qt) hbr
      · rw [if_neg hm] at hld
        obtain ⟨v, hv⟩ := hld
        cases q with
        | nil => exact absurd rfl hq
        | cons qh qt =>
          have hv2 : c :: replaceAllBy csEqChar p rep rest = qh :: (qt ++ v) := by simpa using hv
          injection hv2 with h1 h2
          cases qt with
          | nil => exact ⟨rest, by rw [← h1]; simp⟩
          | cons b bt =>
            have hqt : (b :: bt : List Char) ≠ [] := by simp
            have hbr2 : ('[' : Char) ∉ b :: bt := fun hm2 => hbr (List.mem_cons_of_mem qh hm2)
            have hlen : rest.length ≤ n := by
              simp only [List.length_cons] at hn; omega
            obtain ⟨w, hw⟩ := ih rest hlen (b :: bt) hqt hbr2 ⟨v, h2⟩
            exact ⟨w, by rw [← h1, hw]; simp⟩

/-- No occurrence of a bracket-free `q` in `rep ++ T` when `rep` ends in
`]`, contains no occurrence of `q`, and `T` contains none. -/
theorem not_occursIn_rep_append (q rep T r1 : List Char) (hqR : (']' : Char) ∉ q)
    (hrepEnd : rep = r1 ++ [']']) (hrepOcc : ¬ occursIn q rep) (hT : ¬ occursIn q T) :
    ¬ occursIn q (rep ++ T) := by
  intro h
  rcases occursIn_append_split q rep T h with h1 | h2 | ⟨p1, p2, hpp, hp1, hp2, hsuf, hpre⟩
  · exact hrepOcc h1
  · exact hT h2
  · have hmem := mem_of_suffix_ends p1 rep r1 hp1 hsuf hrepEnd
    exact hqR (hpp ▸ List.mem_append_left p2 hmem)

/-- Replacing every occurrence of `p` (bracket-free, nonempty) by a
bracketed replacement that does not contain `p` leaves no occurrence of
`p` in the output. -/
theorem not_occursIn_replaceAll_self (p rep r1 r2 : List Char) (hp : p ≠ [])
    (hpL : ('[' : Char) ∉ p) (hpR : (']' : Char) ∉ p)
    (hrep1 : rep = '[' :: r2) (hrep2 : rep = r1 ++ [']'])
    (hrepOcc : ¬ occursIn p rep) :
    ∀ (n : Nat) (s : List Char), s.length ≤ n → ¬ occursIn p (replaceAllBy csEqChar p rep s) := by
  have hplen : 1 ≤ p.length := by
    cases p with
    | nil => exact absurd rfl hp
    | cons a l => simp
  intro n
  induction n with
  | zero =>
    intro s hn h
    have hs : s = [] := List.eq_nil_of_length_eq_zero (Nat.le_zero.mp hn)
    subst hs
    rw [replaceAllBy_nil] at h
    exact hp (occursIn_nil p h)
  | succ n ih =>
    intro s hn h
    cases s with
    | nil =>
      rw [replaceAllBy_nil] at h
      exact hp (occursIn_nil p h)
    | cons c rest =>
      rw [replaceAllBy_cons csEqChar p rep hp] at h
      by_cases hm : leadsBy csEqChar p (c :: rest) = true
      · rw [if_pos hm] at h
        have hdlen : (List.drop p.length (c :: rest)).length ≤ n := by
          simp only [List.length_drop, List.length_cons]
          simp only [List.length_cons] at hn
          omega
        exact not_occursIn_rep_append p rep _ r1 hpR hrep2 hrepOcc
          (ih (List.drop p.length (c :: rest)) hdlen) h
      · rw [if_neg hm] at h
        have hlen : rest.length ≤ n := by
          simp only [List.length_cons] at hn; omega
        rcases (occursIn_cons p c _).mp h with hlead | hocc
        · have hcons : c :: replaceAllBy csEqChar p rep rest = replaceAllBy csEqChar p rep (c :: rest) := by
            rw [replaceAllBy_cons csEqChar p rep hp, if_neg hm]
          rw [hcons] at hlead
          have hlp := leadsP_replaceAll p rep hp r2 hrep1 (n + 1) (c :: rest) hn p hp hpL hlead
          exact hm ((leadsBy_cs_iff p (c :: rest)).mpr hlp)
        · exact ih rest hlen hocc

/-- Replacing occurrences of some pattern by a bracketed replacement
cannot introduce an occurrence of a bracket-free `q` that was absent
from the input and is absent from the replacement. -/
theorem not_occursIn_replaceAll_other (q p rep r1 r2 : List Char) (hq : q ≠ [])
    (hqL : ('[' : Char) ∉ q) (hqR : (']' : Char) ∉ q)
    (hrep1 : rep = '[' :: r2) (hrep2 : rep = r1 ++ [']'])
    (hrepOcc : ¬ occursIn q rep) :
    ∀ (n : Nat) (s : List Char), s.length ≤ n → ¬ occursIn q s →
      ¬ occursIn q (replaceAllBy csEqChar p rep s) := by
  by_cases hp : p = []
  · intro n s _ hs
    subst hp
    exact fun h => hs (by simpa [replaceAllBy] using h)
  intro n
  induction n with
  | zero =>
    intro s hn hs h
    have hse : s = [] := List.eq_nil_of_length_eq_zero (Nat.le_zero.mp hn)
    subst hse
    rw [replaceAllBy_nil] at h
    exact hq (occursIn_nil q h)
  | succ n ih =>
    intro s hn hs h
    cases s with
    | nil =>
      rw [replaceAllBy_nil] at h
      exact hq (occursIn_nil q h)
    | cons c rest =>
      rw [replaceAllBy_cons csEqChar p rep hp] at h
      by_cases hm : leadsBy csEqChar p (c :: rest) = true
      · rw [if_pos hm] at h
        have hdlen : (List.drop p.length (c :: rest)).length ≤ n := by
          have hplen : 1 ≤ p.length := by
            cases p with
            | nil => exact absurd rfl hp
            | cons a l => simp
          simp only [List.length_drop, List.length_cons]
          simp only [List.length_cons] at hn
          omega
        have hds : ¬ occursIn q (List.drop p.length (c :: rest)) := fun h2 =>
          hs (occursIn_drop q p.length (c :: rest) h2)
        exact not_occursIn_rep_append q rep _ r1 hqR hrep2 hrepOcc
          (ih (List.drop p.length (c :: rest)) hdlen hds) h
      · rw [if_neg hm] at h
        have hlen : rest.length ≤ n := by
          simp only [List.length_cons] at hn; omega
        have hrs : ¬ occursIn q rest := fun h2 => hs ((occursIn_cons q c rest).mpr (Or.inr h2))
        rcases (occursIn_cons q c _).mp h with hlead | hocc
        · have hcons : c :: replaceAllBy csEqChar p rep rest = replaceAllBy csEqChar p rep (c :: rest) := by
            rw [replaceAllBy_cons csEqChar p rep hp, if_neg hm]
          rw [hcons] at hlead
          have hlp := leadsP_replaceAll p rep hp r2 hrep1 (n + 1) (c :: rest) hn q hq hqL hlead
          exact hs (leadsP_occursIn q (c :: rest) hlp)
        · exact ih rest hlen hrs hocc

/-!  ## Sanitizer properties -/

theorem base64Alphabet_no_bracket : ∀ c ∈ base64Alphabet, c ≠ '[' ∧ c ≠ ']' := by decide

theorem sixBit_mem (n : Nat) : sixBit n ∈ base64Alphabet := by
  unfold sixBit
  rw [List.getD_eq_getElem?_getD]
  rcases h : base64Alphabet[n]? with _ | c
  · decide
  · simpa using List.getElem?_mem h

theorem sixBit_ne_brackets (n : Nat) : sixBit n ≠ '[' ∧ sixBit n ≠ ']' :=
  base64Alphabet_no_bracket (sixBit n) (sixBit_mem n)

theorem base64_no_bracket :
    ∀ (n : Nat) (bytes : List Nat), bytes.length ≤ n →
      ('[' : Char) ∉ base64EncodeBytes bytes ∧ (']' : Char) ∉ base64EncodeBytes bytes := by
  intro n
  induction n with
  | zero =>
    intro bytes hn
    have h : bytes = [] := List.eq_nil_of_length_eq_zero (Nat.le_zero.mp hn)
    subst h
    simp [base64EncodeBytes]
  | succ n ih =>
    intro bytes hn
    match bytes with
    | [] => simp [base64EncodeBytes]
    | [b1] =>
      simp only [base64EncodeBytes, List.mem_cons, List.not_mem_nil, or_false]
      constructor
      · push_neg
        exact ⟨fun h => (sixBit_ne_brackets _).1 h.symm, fun h => (sixBit_ne_brackets _).1 h.symm,
          by decide, by decide⟩
      · push_neg
        exact ⟨fun h => (sixBit_ne_brackets _).2 h.symm, fun h => (sixBit_ne_brackets _).2 h.symm,
          by decide, by decide⟩
    | [b1, b2] =>
      simp only [base64EncodeBytes, List.mem_cons, List.not_mem_nil, or_false]
      constructor
      · push_neg
        exact ⟨fun h => (sixBit_ne_brackets _).1 h.symm, fun h => (sixBit_ne_brackets _).1 h.symm,
          fun h => (sixBit_ne_brackets _).1 h.symm, by decide⟩
      · push_neg
        exact ⟨fun h => (sixBit_ne_brackets _).2 h.symm, fun h => (sixBit_ne_brackets _).2 h.symm,
          fun h => (sixBit_ne_brackets _).2 h.symm, by decide⟩
    | b1 :: b2 :: b3 :: rest =>
      have hlen : rest.length ≤ n := by
        simp only [List.length_cons] at hn; omega
      obtain ⟨ihL, ihR⟩ := ih rest hlen
      simp only [base64EncodeBytes, List.mem_cons]
      constructor
      · push_neg
        exact ⟨fun h => (sixBit_ne_brackets _).1 h.symm, fun h => (sixBit_ne_brackets _).1 h.symm,
          fun h => (sixBit_ne_brackets _).1 h.symm, fun h => (sixBit_ne_brackets _).1 h.symm, ihL⟩
      · push_neg
        exact ⟨fun h => (sixBit_ne_brackets _).2 h.symm, fun h => (sixBit_ne_brackets _).2 h.symm,
          fun h => (sixBit_ne_brackets _).2 h.symm, fun h => (sixBit_ne_brackets _).2 h.symm, ihR⟩

theorem base64EncodeBytes_ne_nil (b : Nat) (rest : List Nat) :
    base64EncodeBytes (b :: rest) ≠ [] := by
  match rest with
  | [] => simp [base64EncodeBytes]
  | [b2] => simp [base64EncodeBytes]
  | b2 :: b3 :: r => simp [base64EncodeBytes]

theorem base64Pat_ne_nil (pat : String) : (base64Pat pat).data ≠ [] := by
  show base64EncodeBytes (utf8Bytes (':' :: pat.data)) ≠ []
  have h : utf8Bytes (':' :: pat.data) = 58 :: utf8Bytes pat.data := by
    simp [utf8Bytes, charUtf8Bytes]
  rw [h]
  exact base64EncodeBytes_ne_nil 58 (utf8Bytes pat.data)

theorem base64Pat_no_bracket (pat : String) :
    ('[' : Char) ∉ (base64Pat pat).data ∧ (']' : Char) ∉ (base64Pat pat).data := by
  show ('[' : Char) ∉ base64EncodeBytes (utf8Bytes (':' :: pat.data)) ∧ _
  exact base64_no_bracket (utf8Bytes (':' :: pat.data)).length _ (le_refl _)

theorem string_data_ne_nil (s : String) (h : s ≠ "") : s.data ≠ [] := by
  intro hd
  apply h
  cases s with
  | mk l =>
    simp only at hd
    rw [hd]

/-- The central sanitizer guarantee, under the hypotheses forced by the
construction: the PAT is nonempty, contains no bracket characters, and
neither the PAT nor its base64 form collides with the redaction
placeholders. -/
theorem sanitizePat_no_leak (c : AzureDevOpsConfig) (hne : c.pat ≠ "")
    (hL : ('[' : Char) ∉ c.pat.data) (hR : (']' : Char) ∉ c.pat.data)
    (h1 : ¬ occursIn c.pat.data patRedacted.data)
    (h2 : ¬ occursIn c.pat.data patB64Redacted.data)
    (h3 : ¬ occursIn (base64Pat c.pat).data patB64Redacted.data) :
    ∀ text : String, ¬ occursIn c.pat.data (sanitizePat (some c) text).data ∧
      ¬ occursIn (base64Pat c.pat).data (sanitizePat (some c) text).data := by
  intro text
  have hpd : c.pat.data ≠ [] := string_data_ne_nil c.pat hne
  have hbe : (c.pat == "") = false := by
    simp only [beq_eq_false_iff_ne, ne_eq]
    exact hne
  unfold sanitizePat
  simp only [hbe, Bool.false_eq_true, if_false]
  set p := c.pat.data with hp
  set b := (base64Pat c.pat).data with hb
  have hbne : b ≠ [] := base64Pat_ne_nil c.pat
  have hbL : ('[' : Char) ∉ b := (base64Pat_no_bracket c.pat).1
  have hbR : (']' : Char) ∉ b := (base64Pat_no_bracket c.pat).2
  -- step 1 leaves no occurrence of the PAT
  have hs1 : ¬ occursIn p (if containsSeq csEqChar p text.data then
      replaceAllBy csEqChar p patRedacted.data text.data else text.data) := by
    split
    · exact not_occursIn_replaceAll_self p patRedacted.data "[PAT_REDACTED".data
        "PAT_REDACTED]".data hpd hL hR (by decide) (by decide) h1
        text.data.length text.data (le_refl _)
    · intro hocc
      rename_i hcf
      exact hcf ((containsSeq_cs_iff p text.data).mpr hocc)
  set s1 := if containsSeq csEqChar p text.data then
      replaceAllBy csEqChar p patRedacted.data text.data else text.data with hs1def
  constructor
  · -- no occurrence of the raw PAT after step 2
    split
    · exact not_occursIn_replaceAll_other p b patB64Redacted.data
        "[PAT_BASE64_REDACTED".data "PAT_BASE64_REDACTED]".data hpd hL hR
        (by decide) (by decide) h2 s1.length s1 (le_refl _) hs1
    · exact hs1
  · -- no occurrence of the base64 PAT after step 2
    split
    · exact not_occursIn_replaceAll_self b patB64Redacted.data
        "[PAT_BASE64_REDACTED".data "PAT_BASE64_REDACTED]".data hbne hbL hbR
        (by decide) (by decide) h3 s1.length s1 (le_refl _)
    · intro hocc
      rename_i hcf
      exact hcf ((containsSeq_cs_iff b s1).mpr hocc)

/-- A concrete configuration used by witnesses and counterexamples. -/
def testConfig (pat : String) : AzureDevOpsConfig :=
  { organizationUrl := "https://dev.azure.com/org", project := "Proj", pat := pat }

instance leadsPDecidable (q s : List Char) : Decidable (leadsP q s) :=
  decidable_of_iff (leadsBy csEqChar q s = true) (leadsBy_cs_iff q s)

theorem string_mk_data (s : String) : String.mk s.data = s := by
  cases s
  rfl

theorem containsSeq_false_iff (p s : List Char) :
    containsSeq csEqChar p s = false ↔ ¬ occursIn p s := by
  rw [← containsSeq_cs_iff]
  cases containsSeq csEqChar p s <;> simp

/-- If neither the PAT nor its base64 form occurs in a text, sanitizing
it is the identity. -/
theorem sanitizePat_of_not_occurs (c : AzureDevOpsConfig) (t : String)
    (hp : ¬ occursIn c.pat.data t.data) (hb : ¬ occursIn (base64Pat c.pat).data t.data) :
    sanitizePat (some c) t = t := by
  have hc1 : containsSeq csEqChar c.pat.data t.data = false := (containsSeq_false_iff _ _).mpr hp
  have hc2 : containsSeq csEqChar (base64Pat c.pat).data t.data = false :=
    (containsSeq_false_iff _ _).mpr hb
  simp only [sanitizePat]
  rcases hpe : (c.pat == "") with _ | _
  · simp only [Bool.false_eq_true, if_false, hc1, hc2]
  · simp only [if_true]

/-- Every text content item of a response produced by a configured
`handleToolCall` is the image of some string under `sanitizePat`. -/
theorem handleToolCall_text_sanitized (c : AzureDevOpsConfig) (name : Option String)
    (outcome : ToolOutcome) (r : ToolResponse)
    (h : handleToolCall (some c) name outcome = .ok r) :
    ∀ s, ContentItem.text s ∈ r.content → ∃ t, s = sanitizePat (some c) t := by
  intro s hs
  cases outcome with
  | ok r0 =>
    simp only [handleToolCall] at h
    injection h with h2
    subst h2
    simp only [sanitizeResponse, List.mem_map] at hs
    obtain ⟨item, hitem, hmap⟩ := hs
    cases item with
    | text t =>
      refine ⟨t, ?_⟩
      have := hmap
      simp only at this
      injection this with h3
      exact h3.symm
    | other => exact absurd hmap (by simp)
  | errMsg m =>
    simp only [handleToolCall] at h
    injection h with h2
    subst h2
    simp only [sanitizeResponse, List.map_cons, List.map_nil, List.mem_singleton] at hs
    injection hs with h3
    exact ⟨_, h3⟩
  | errNonError =>
    simp only [handleToolCall] at h
    injection h with h2
    subst h2
    simp only [sanitizeResponse, List.map_cons, List.map_nil, List.mem_singleton] at hs
    injection hs with h3
    exact ⟨_, h3⟩

/-- Claim C9, as stated, is refuted by the PAT `D]A`: sanitizing the
text `D]AA` replaces the occurrence of the PAT, but the replacement
placeholder recreates the PAT across the splice boundary, so the
sanitized output still contains the raw PAT. -/
theorem claim_C9_counterexample :
    sanitizePat (some (testConfig "D]A")) "D]AA" = "[PAT_REDACTED]A" ∧
    occursIn "D]A".data "[PAT_REDACTED]A".data := by
  constructor
  · decide
  · decide

/-- Claim C9 (amended): for every configured PAT that is nonempty,
contains no bracket characters, and does not collide with the redaction
placeholders (neither the PAT nor its base64 form occurs in them),
`sanitizePat` output contains no occurrence of the raw PAT and none of
the base64 encoding of `:` + PAT; consequently no text content item of
any response returned by `handleToolCall` contains the PAT in either
form. -/
theorem claim_C9_amended (c : AzureDevOpsConfig) (hne : c.pat ≠ "")
    (hL : ('[' : Char) ∉ c.pat.data) (hR : (']' : Char) ∉ c.pat.data)
    (h1 : ¬ occursIn c.pat.data patRedacted.data)
    (h2 : ¬ occursIn c.pat.data patB64Redacted.data)
    (h3 : ¬ occursIn (base64Pat c.pat).data patB64Redacted.data) :
    (∀ text : String, ¬ occursIn c.pat.data (sanitizePat (some c) text).data ∧
      ¬ occursIn (base64Pat c.pat).data (sanitizePat (some c) text).data) ∧
    (∀ (name : Option String) (outcome : ToolOutcome) (r : ToolResponse),
      handleToolCall (some c) name outcome = .ok r →
      ∀ s, ContentItem.text s ∈ r.content →
        ¬ occursIn c.pat.data s.data ∧ ¬ occursIn (base64Pat c.pat).data s.data) := by
  have hmain := sanitizePat_no_leak c hne hL hR h1 h2 h3
  refine ⟨hmain, ?_⟩
  intro name outcome r h s hs
  obtain ⟨t, rfl⟩ := handleToolCall_text_sanitized c name outcome r h s hs
  exact hmain t

/-- Witness for claim C9 (amended) at the PAT `secret123`. -/
theorem claim_C9_amended_witness :
    ¬ occursIn "secret123".data
      (sanitizePat (some (testConfig "secret123")) "the PAT is secret123").data ∧
    ¬ occursIn (base64Pat "secret123").data
      (sanitizePat (some (testConfig "secret123")) "the PAT is secret123").data :=
  (claim_C9_amended (testConfig "secret123") (by decide) (by decide) (by decide) (by decide) (by decide)
      (by decide)).1 "the PAT is secret123"

/-- Claim C10, as stated, fails when the configured PAT collides with
the fixed error-text prefix: with PAT `Error`, the post-hoc response
sanitization rewrites the prefix itself, so the text no longer starts
with `Error executing `. -/
theorem claim_C10_counterexample :
    handleToolCall (some (testConfig "Error")) (some "get-builds") (.errMsg "boom") =
      .ok { content := [.text "[PAT_REDACTED] executing get-builds: boom"], isError := true } ∧
    ¬ leadsP "Error executing ".data "[PAT_REDACTED] executing get-builds: boom".data := by
  constructor
  · rfl
  · decide

/-- Claim C10 (amended): for a configured instance, a throwing tool
handler never propagates: the call returns a response with `isError`
true and a single text item; provided the configured PAT and its base64
form do not occur in the constructed error text, that text starts with
`Error executing ` followed by the tool name with carriage-return,
newline and tab replaced by underscores.  The call throws exactly when
no configuration has been set. -/
theorem claim_C10_amended (c : AzureDevOpsConfig) (name : Option String) (m : String)
    (hpat : ¬ occursIn c.pat.data
      ("Error executing " ++ sanitizeToolName name ++ ": " ++ sanitizePat (some c) m).data)
    (hb64 : ¬ occursIn (base64Pat c.pat).data
      ("Error executing " ++ sanitizeToolName name ++ ": " ++ sanitizePat (some c) m).data) :
    (∃ r, handleToolCall (some c) name (.errMsg m) = .ok r ∧ r.isError = true ∧
      r.content = [.text ("Error executing " ++ sanitizeToolName name ++ ": " ++
        sanitizePat (some c) m)] ∧
      ∀ s, ContentItem.text s ∈ r.content →
        leadsP ("Error executing " ++ sanitizeToolName name).data s.data) ∧
    (∀ outcome : ToolOutcome, ∃ r, handleToolCall (some c) name outcome = .ok r) ∧
    (∀ (n2 : Option String) (o : ToolOutcome),
      handleToolCall none n2 o = .error "No Azure DevOps configuration available") := by
  refine ⟨?_, ?_, ?_⟩
  · have hid := sanitizePat_of_not_occurs c
      ("Error executing " ++ sanitizeToolName name ++ ": " ++ sanitizePat (some c) m) hpat hb64
    refine ⟨_, rfl, rfl, ?_, ?_⟩
    · show (sanitizeResponse (some c) _).content = _
      simp only [sanitizeResponse, List.map_cons, List.map_nil]
      rw [hid]
    · intro s hs
      simp only [sanitizeResponse, List.map_cons, List.map_nil, List.mem_singleton] at hs
      rw [hid] at hs
      injection hs with h3
      subst h3
      refine ⟨(": " ++ sanitizePat (some c) m).data, ?_⟩
      rw [← String.data_append]
      rw [show "Error executing " ++ sanitizeToolName name ++ ": " ++ sanitizePat (some c) m =
        ("Error executing " ++ sanitizeToolName name) ++ (": " ++ sanitizePat (some c) m) by
          rw [String.append_assoc]]
  · intro outcome
    cases outcome <;> exact ⟨_, rfl⟩
  · intro n2 o
    rfl

/-- Witness for claim C10 (amended) at PAT `secret123`, tool
`get-builds`, thrown message `boom`. -/
theorem claim_C10_amended_witness :
    (∃ r, handleToolCall (some (testConfig "secret123")) (some "get-builds") (.errMsg "boom") = .ok r ∧ r.isError = true ∧
      r.content = [.text ("Error executing " ++ sanitizeToolName (some "get-builds") ++ ": " ++
        sanitizePat (some (testConfig "secret123")) "boom")] ∧
      ∀ s, ContentItem.text s ∈ r.content →
        leadsP ("Error executing " ++ sanitizeToolName (some "get-builds")).data s.data) ∧
    (∀ outcome : ToolOutcome, ∃ r, handleToolCall
      (some (testConfig "secret123")) (some "get-builds") outcome = .ok r) ∧
    (∀ (n2 : Option String) (o : ToolOutcome),
      handleToolCall none n2 o = .error "No Azure DevOps configuration available") :=
  claim_C10_amended (testConfig "secret123") (some "get-builds") "boom" (by decide) (by decide)

/-!  ## Pagination properties -/

theorem jsSlice_nonneg (l : List Int) (a b : Int) (ha : 0 ≤ a) (hb : 0 ≤ b) :
    jsSlice l a b = (l.drop a.toNat).take (b.toNat - a.toNat) := by
  simp only [jsSlice]
  rw [if_neg (not_lt.mpr ha), if_neg (not_lt.mpr hb)]
  rcases le_or_lt (l.length : Int) a with hla | hla
  · rw [min_eq_right hla]
    have h1 : l.length ≤ a.toNat := by omega
    rw [List.drop_eq_nil_of_le (le_trans (List.length_take_le _ _) (by simp))]
    · rw [List.drop_eq_nil_of_le h1]
      simp
  · rw [min_eq_left (le_of_lt hla)]
    rcases le_or_lt b (l.length : Int) with hlb | hlb
    · rw [min_eq_left hlb]
      rw [List.drop_take]
    · rw [min_eq_right (le_of_lt hlb)]
      have h2 : (l.length : Int).toNat = l.length := by omega
      rw [h2, List.take_length, List.take_of_length_le]
      simp only [List.length_drop]
      omega

theorem ceilDivJs_eq (n : Nat) (k : Int) (hk : 1 ≤ k) :
    ceilDivJs n k = (((n + (k.toNat - 1)) / k.toNat : Nat) : Int) := by
  obtain ⟨m, rfl⟩ : ∃ m : Nat, k = (m : Int) := ⟨k.toNat, by omega⟩
  have hm : 0 < m := by omega
  have hkt : (m : Int).toNat = m := by omega
  rw [hkt]
  cases n with
  | zero =>
    unfold ceilDivJs
    have h1 : (m - 1) / m = 0 := Nat.div_eq_of_lt (by omega)
    simp [Int.zero_fdiv, h1]
  | succ n =>
    unfold ceilDivJs
    obtain ⟨m2, rfl⟩ : ∃ m2, m = m2 + 1 := ⟨m - 1, by omega⟩
    have hns : -((n + 1 : Nat) : Int) = Int.negSucc n := by
      rw [Int.negSucc_eq]
      push_cast
      ring
    rw [hns]
    have hfd : Int.fdiv (Int.negSucc n) ((m2 + 1 : Nat) : Int) = Int.negSucc (n / (m2 + 1)) := rfl
    rw [hfd]
    have hrhs : (n + 1 + (m2 + 1 - 1)) = n + (m2 + 1) := by omega
    rw [hrhs, Nat.add_div_right n hm, Int.neg_negSucc]

/-- Unfolding of the pagination block for a present, nonzero page and
pageSize. -/
theorem paginateIds_some_some (p z : Int) (hp0 : p ≠ 0) (hz0 : z ≠ 0) (ids : List Int) :
    paginateIds (some p) (some z) ids =
      (jsSlice ids ((p - 1) * z) ((p - 1) * z + z),
       some { page := p
              pageSize := z
              totalItems := ids.length
              totalPages := ceilDivJs ids.length z
              hasNextPage := decide ((p - 1) * z + z < (ids.length : Int))
              hasPreviousPage := decide (p > 1) }) := by
  have hpb : (p == 0) = false := by simp [hp0]
  simp only [paginateIds, pageOr1, pageSizeOpt, hpb, Bool.false_eq_true, if_false,
    if_pos hz0]
  rw [if_pos (Or.inr (by simp))]
  rfl

/-- Claim C4: for page >= 1 and pageSize >= 1 over an identifier list,
the slice is `ids[(page-1)*pageSize : (page-1)*pageSize + pageSize]`,
`totalItems` is the pre-slice identifier count, `totalPages` is
`ceil(totalItems / pageSize)`, `hasNextPage` is
`start + pageSize < totalItems`, and `hasPreviousPage` is `page > 1`. -/
theorem claim_C4 (p z : Int) (hp : 1 ≤ p) (hz : 1 ≤ z) (ids : List Int) :
    (paginateIds (some p) (some z) ids).1 =
      (ids.drop ((p - 1) * z).toNat).take z.toNat ∧
    (paginateIds (some p) (some z) ids).2 =
      some { page := p
             pageSize := z
             totalItems := ids.length
             totalPages := (((ids.length + (z.toNat - 1)) / z.toNat : Nat) : Int)
             hasNextPage := decide ((p - 1) * z + z < (ids.length : Int))
             hasPreviousPage := decide (p > 1) } := by
  have hstart : 0 ≤ (p - 1) * z := mul_nonneg (by omega) (by omega)
  have h := paginateIds_some_some p z (by omega) (by omega) ids
  rw [h]
  constructor
  · show jsSlice ids ((p - 1) * z) ((p - 1) * z + z) = _
    rw [jsSlice_nonneg ids _ _ hstart (by omega)]
    have h2 : ((p - 1) * z + z).toNat - ((p - 1) * z).toNat = z.toNat := by omega
    rw [h2]
  · show some _ = some _
    rw [ceilDivJs_eq ids.length z hz]

/-- Witness for claim C4 at the specified scenario: page 2, pageSize 50
over 95 identifiers yields a 45-item slice with no next page and a
previous page. -/
theorem claim_C4_witness :
    ((paginateIds (some 2) (some 50) ((List.range 95).map (fun n => (n : Int)))).1 =
      ((((List.range 95).map (fun n => (n : Int))).drop (((2 : Int) - 1) * 50).toNat).take
        (50 : Int).toNat) ∧
     (paginateIds (some 2) (some 50) ((List.range 95).map (fun n => (n : Int)))).2 =
      some { page := 2
             pageSize := 50
             totalItems := ((List.range 95).map (fun n => (n : Int))).length
             totalPages := (((((List.range 95).map (fun n => (n : Int))).length +
               ((50 : Int).toNat - 1)) / (50 : Int).toNat : Nat) : Int)
             hasNextPage := decide (((2 : Int) - 1) * 50 + 50 <
               (((List.range 95).map (fun n => (n : Int))).length : Int))
             hasPreviousPage := decide ((2 : Int) > 1) }) ∧
    (paginateIds (some 2) (some 50) ((List.range 95).map (fun n => (n : Int)))).1.length = 45 ∧
    (paginateIds (some 2) (some 50)
      ((List.range 95).map (fun n => (n : Int)))).2.map (fun md => md.hasNextPage) =
        some false ∧
    (paginateIds (some 2) (some 50)
      ((List.range 95).map (fun n => (n : Int)))).2.map (fun md => md.hasPreviousPage) =
        some true :=
  ⟨claim_C4 2 50 (by decide) (by decide) ((List.range 95).map (fun n => (n : Int))),
   by decide, by decide, by decide⟩

/-- Claim C3, as stated, is refuted: a page argument of `0` (a value
below 1) is silently treated as page 1 through `args.page || 1` — the
request does not fail, a slice is computed, and the metadata even
reports `page = 1`. -/
theorem claim_C3_counterexample :
    paginateIds (some 0) (some 50) ((List.range 95).map (fun n => (n : Int))) =
      (((List.range 95).map (fun n => (n : Int))).take 50,
       some { page := 1
              pageSize := 50
              totalItems := 95
              totalPages := 2
              hasNextPage := true
              hasPreviousPage := false }) := by
  decide

/-- Claim C3 (amended): `page < 1` is never surfaced as an error.  A
page argument of `0` is falsy and therefore indistinguishable from an
absent page (so with a pageSize present it is silently clamped to page
1), and a negative page with a positive pageSize yields a silently
computed slice through JavaScript negative-index `slice` semantics,
with the negative page echoed in the metadata. -/
theorem claim_C3_amended :
    (∀ (z : Option Int) (ids : List Int),
      paginateIds (some 0) z ids = paginateIds none z ids) ∧
    (∀ (p z : Int), p < 0 → 1 ≤ z → ∀ ids : List Int,
      paginateIds (some p) (some z) ids =
        (jsSlice ids ((p - 1) * z) ((p - 1) * z + z),
         some { page := p
                pageSize := z
                totalItems := ids.length
                totalPages := ceilDivJs ids.length z
                hasNextPage := decide ((p - 1) * z + z < (ids.length : Int))
                hasPreviousPage := false })) := by
  constructor
  · intro z ids
    rfl
  · intro p z hp hz ids
    have h := paginateIds_some_some p z (by omega) (by omega) ids
    rw [h]
    have hprev : decide (p > 1) = false := decide_eq_false (by omega)
    rw [hprev]

/-- Witness for claim C3 (amended): page `-1`, pageSize 50 over 95
identifiers silently yields the JavaScript slice `ids.slice(-100, -50)`
(= the first 45 identifiers). -/
theorem claim_C3_amended_witness :
    paginateIds (some (-1)) (some 50) ((List.range 95).map (fun n => (n : Int))) =
      (jsSlice ((List.range 95).map (fun n => (n : Int))) (((-1 : Int) - 1) * 50)
        (((-1 : Int) - 1) * 50 + 50),
       some { page := -1
              pageSize := 50
              totalItems := ((List.range 95).map (fun n => (n : Int))).length
              totalPages := ceilDivJs ((List.range 95).map (fun n => (n : Int))).length 50
              hasNextPage := decide (((-1 : Int) - 1) * 50 + 50 <
                (((List.range 95).map (fun n => (n : Int))).length : Int))
              hasPreviousPage := false }) :=
  claim_C3_amended.2 (-1) 50 (by decide) (by decide) ((List.range 95).map (fun n => (n : Int)))

/-!  ## Response Size Arbiter properties -/

/-- A minimal work item used by witnesses and counterexamples. -/
def emptyItem : WorkItem := { id := 1, fields := [] }

theorem utf8Len_replicate (n : Nat) (c : Char) (h : c.toNat < 128) :
    utf8Len (String.mk (List.replicate n c)) = n := by
  have hc : charUtf8Bytes c = [c.toNat] := by
    unfold charUtf8Bytes
    rw [if_pos h]
  induction n with
  | zero => rfl
  | succ k ih =>
    show (utf8Bytes (List.replicate (k + 1) c)).length = k + 1
    rw [List.replicate_succ]
    unfold utf8Bytes
    rw [List.flatMap_cons, hc]
    have ih2 : (utf8Bytes (List.replicate k c)).length = k := ih
    unfold utf8Bytes at ih2
    simp only [List.length_append, List.length_cons, List.length_nil]
    omega

/-- Claim C2: when the serialized size exceeds the hard limit and the
caller neither requested raw JSON nor set the force flag, the response
is the Summary Renderer text with `truncated` metadata carrying the
original size and the remediation suggestions. -/
theorem claim_C2 (args : WIArgs) (value : List WorkItem) (resultString : String)
    (hsize : utf8Len resultString > TOKEN_LIMIT)
    (hfmt : args.format ≠ some "json") (hforce : args.force ≠ some true) :
    shapeWorkItemsResponse args value resultString =
      { text := formatWorkItemsSummary value args.groupBy
        meta := .truncated (utf8Len resultString) "exceeded-token-limit" value.length
          truncatedSuggestions } := by
  simp only [shapeWorkItemsResponse]
  rw [if_pos ⟨hsize, hfmt, hforce⟩]

/-- Witness for claim C2 at the specified scenario: 95 items, a 260000
byte serialization, and no caller flags take the truncated path. -/
theorem claim_C2_witness :
    shapeWorkItemsResponse
        { format := none, force := none, groupBy := none, compact := false, fields := none }
        (List.replicate 95 emptyItem)
        (String.mk (List.replicate 260000 'a')) =
      { text := formatWorkItemsSummary (List.replicate 95 emptyItem) none
        meta := .truncated (utf8Len (String.mk (List.replicate 260000 'a')))
          "exceeded-token-limit" (List.replicate 95 emptyItem).length
          truncatedSuggestions } :=
  claim_C2 { format := none, force := none, groupBy := none, compact := false, fields := none }
    (List.replicate 95 emptyItem) (String.mk (List.replicate 260000 'a'))
    (by rw [utf8Len_replicate 260000 'a' (by decide)]; decide) (by simp) (by simp)

set_option maxRecDepth 8000 in
/-- Claim C1, as stated, is refuted: above the hard limit, a caller that
sets `format: "json"` together with `force: true` receives the raw
serialized JSON (the soft-warning branch), not the Summary Renderer
text — the guard on the hard-limit branch explicitly yields to both
overrides. -/
theorem claim_C1_counterexample :
    (shapeWorkItemsResponse
        { format := some "json", force := some true, groupBy := none, compact := false,
          fields := none }
        [emptyItem]
        (String.mk (List.replicate 200001 'a'))).text =
      String.mk (List.replicate 200001 'a') ∧
    String.mk (List.replicate 200001 'a') ≠
      formatWorkItemsSummary [emptyItem] none := by
  have hsz : utf8Len (String.mk (List.replicate 200001 'a')) = 200001 :=
    utf8Len_replicate 200001 'a' (by decide)
  constructor
  · simp only [shapeWorkItemsResponse]
    rw [if_neg (fun h => h.2.2 rfl)]
    rw [if_neg (fun h => h.2.2 rfl)]
    rw [if_pos (by rw [hsz]; decide)]
  · intro h
    have hl := congrArg (fun s => s.data.length) h
    simp only [List.length_replicate] at hl
    exact absurd hl (by decide)

/-- Claim C1 (amended): above the hard byte limit the Summary Renderer
text is emitted only when the caller neither requested `format: "json"`
nor set `force: true`.  With only `force: true` the body is still the
summary text, but through the format-choice branch (tagged as a format
choice, not a truncation); with `format: "json"` the raw JSON body is
emitted.  The hard limit therefore does not dominate the explicit
overrides. -/
theorem claim_C1_amended (args : WIArgs) (value : List WorkItem) (resultString : String)
    (hsize : utf8Len resultString > TOKEN_LIMIT) :
    (args.format ≠ some "json" → args.force ≠ some true →
      (shapeWorkItemsResponse args value resultString).text =
        formatWorkItemsSummary value args.groupBy) ∧
    (args.format ≠ some "json" → args.force = some true → value ≠ [] →
      (shapeWorkItemsResponse args value resultString).text =
        formatWorkItemsSummary value args.groupBy ∧
      (shapeWorkItemsResponse args value resultString).meta =
        .formatChoice value.length (utf8Len resultString)
          "Use format: \"json\" with force: true for full JSON output") ∧
    (args.format = some "json" →
      (shapeWorkItemsResponse args value resultString).text = resultString) := by
  have hwarn : utf8Len resultString > SIZE_WARNING_THRESHOLD := by
    unfold TOKEN_LIMIT at hsize
    unfold SIZE_WARNING_THRESHOLD
    omega
  refine ⟨?_, ?_, ?_⟩
  · intro hfmt hforce
    rw [claim_C2 args value resultString hsize hfmt hforce]
  · intro hfmt hforce hval
    have hsum : (args.format == some "summary" ||
        decide (value.length > SUMMARY_THRESHOLD_ITEMS) ||
        decide (utf8Len resultString > SIZE_WARNING_THRESHOLD)) = true := by
      rw [decide_eq_true hwarn]
      simp
    simp only [shapeWorkItemsResponse]
    rw [if_neg (fun h => h.2.2 (by rw [hforce]))]
    rw [if_pos ⟨hsum, hval, hfmt⟩]
    exact ⟨rfl, rfl⟩
  · intro hfmt
    simp only [shapeWorkItemsResponse]
    rw [if_neg (fun h => h.2.1 hfmt)]
    rw [if_neg (fun h => h.2.2 hfmt)]
    rw [if_pos hwarn]

/-- Witness for claim C1 (amended): a 200001-byte serialization with a
single item, exercised with no flags. -/
theorem claim_C1_amended_witness :
    ((shapeWorkItemsResponse
        { format := none, force := none, groupBy := none, compact := false, fields := none }
        [emptyItem]
        (String.mk (List.replicate 200001 'a'))).text =
      formatWorkItemsSummary [emptyItem] none) ∧
    ((shapeWorkItemsResponse
        { format := some "json", force := none, groupBy := none, compact := false, fields := none }
        [emptyItem]
        (String.mk (List.replicate 200001 'a'))).text =
      String.mk (List.replicate 200001 'a')) :=
  ⟨(claim_C1_amended
      { format := none, force := none, groupBy := none, compact := false, fields := none }
      [emptyItem] (String.mk (List.replicate 200001 'a'))
      (by rw [utf8Len_replicate 200001 'a' (by decide)]; decide)).1 (by simp) (by simp),
   (claim_C1_amended
      { format := some "json", force := none, groupBy := none, compact := false, fields := none }
      [emptyItem] (String.mk (List.replicate 200001 'a'))
      (by rw [utf8Len_replicate 200001 'a' (by decide)]; decide)).2.2 rfl⟩

/-!  ## Grouping sort properties (Summary Renderer) -/

theorem mem_insertCountDesc (x y : String × List SummaryItem) (l : List (String × List SummaryItem)) :
    y ∈ insertCountDesc x l ↔ y = x ∨ y ∈ l := by
  induction l with
  | nil => simp [insertCountDesc]
  | cons h t ih =>
    simp only [insertCountDesc]
    split
    · simp [List.mem_cons]
    · simp only [List.mem_cons, ih]
      tauto

theorem insertCountDesc_sorted (x : String × List SummaryItem)
    (l : List (String × List SummaryItem))
    (hl : List.Pairwise (fun a b => b.2.length ≤ a.2.length) l) :
    List.Pairwise (fun a b => b.2.length ≤ a.2.length) (insertCountDesc x l) := by
  induction l with
  | nil => simp [insertCountDesc]
  | cons h t ih =>
    rw [List.pairwise_cons] at hl
    obtain ⟨hh, ht⟩ := hl
    simp only [insertCountDesc]
    split
    · rename_i hcond
      rw [List.pairwise_cons]
      constructor
      · intro y hy
        rcases List.mem_cons.mp hy with rfl | hyt
        · exact hcond
        · exact le_trans (hh y hyt) hcond
      · rw [List.pairwise_cons]
        exact ⟨hh, ht⟩
    · rename_i hcond
      rw [List.pairwise_cons]
      constructor
      · intro y hy
        rcases (mem_insertCountDesc x y t).mp hy with rfl | hyt
        · omega
        · exact hh y hyt
      · exact ih ht

theorem sortCountDesc_sorted (l : List (String × List SummaryItem)) :
    List.Pairwise (fun a b => b.2.length ≤ a.2.length) (sortCountDesc l) := by
  induction l with
  | nil => simp [sortCountDesc]
  | cons x xs ih => exact insertCountDesc_sorted x (sortCountDesc xs) ih

theorem insertCountDesc_filter (x : String × List SummaryItem)
    (l : List (String × List SummaryItem)) (c : Nat) :
    (insertCountDesc x l).filter (fun e => e.2.length == c) =
      (if x.2.length == c then [x] else []) ++ l.filter (fun e => e.2.length == c) := by
  induction l with
  | nil =>
    simp only [insertCountDesc, List.filter_nil, List.append_nil]
    rcases h : (x.2.length == c) with _ | _
    · simp [List.filter, h]
    · simp [List.filter, h]
  | cons h t ih =>
    simp only [insertCountDesc]
    split
    · rename_i hcond
      rw [List.filter_cons]
      split
      · rfl
      · simp
    · rename_i hcond
      rw [List.filter_cons, List.filter_cons, ih]
      rcases hh : (h.2.length == c) with _ | _
      · simp
      · have hx : (x.2.length == c) = false := by
          have h1 : h.2.length = c := by
            have := hh
            simp only [beq_iff_eq] at this
            exact this
          simp only [beq_eq_false_iff_ne, ne_eq]
          omega
        rw [hx]
        simp

theorem sortCountDesc_filter (l : List (String × List SummaryItem)) (c : Nat) :
    (sortCountDesc l).filter (fun e => e.2.length == c) =
      l.filter (fun e => e.2.length == c) := by
  induction l with
  | nil => simp [sortCountDesc]
  | cons x xs ih =>
    simp only [sortCountDesc]
    rw [insertCountDesc_filter, ih, List.filter_cons]
    rcases h : (x.2.length == c) with _ | _
    · simp
    · simp

theorem jsObjectEntries_of_no_index (l : List (String × List SummaryItem))
    (h : ∀ e ∈ l, isArrayIndexKey e.1 = false) : jsObjectEntries l = l := by
  unfold jsObjectEntries
  have h1 : l.filter (fun e => isArrayIndexKey e.1) = [] := by
    rw [List.filter_eq_nil_iff]
    intro e he
    simp [h e he]
  have h2 : l.filter (fun e => !isArrayIndexKey e.1) = l := by
    rw [List.filter_eq_self]
    intro e he
    simp [h e he]
  rw [h1, h2]
  rfl

/-- The record pair that exhibits the `Object.entries` integer-key
reordering: two states whose display values are the numeric strings
`2` and `1`. -/
def numericStateRecords : List WorkItem :=
  [{ id := 1, fields := [("System.State", JsValue.str "2")] },
   { id := 2, fields := [("System.State", JsValue.str "1")] }]

/-- Claim C8, as stated, is refuted: when group keys are numeric
strings, JavaScript objects enumerate them in ascending numeric order
rather than first-encounter order, so two equal-count groups keyed
`2` (encountered first) and `1` come out of the stable sort as
`1`, `2` — not in encounter order. -/
theorem claim_C8_counterexample :
    ¬ (∀ (records : List WorkItem) (groupBy : String),
        List.Pairwise (fun a b => b.2.length ≤ a.2.length)
          (sortedSummaryGroups records groupBy) ∧
        (∀ c : Nat,
          ((sortedSummaryGroups records groupBy).filter
            (fun e => e.2.length == c)).map (fun e => e.1) =
          ((buildSummaryGroups records groupBy).filter
            (fun e => e.2.length == c)).map (fun e => e.1))) := by
  intro h
  have h2 := (h numericStateRecords "System.State").2 1
  exact absurd h2 (by decide)

/-- Claim C8 (amended): the groups rendered by the Summary Renderer are
ordered by item count descending, and — provided no group key is an
array-index-like string (the canonical decimal form of an integer below
2^32 - 1, which JavaScript objects hoist to the front in numeric
order) — any two groups with equal counts appear in the order their
keys were first encountered while scanning the records: for every count
value, the subsequence of groups with that count equals the
corresponding subsequence of the encounter-ordered grouping. -/
theorem claim_C8_amended (records : List WorkItem) (groupBy : String)
    (hkeys : ∀ e ∈ buildSummaryGroups records groupBy, isArrayIndexKey e.1 = false) :
    List.Pairwise (fun a b => b.2.length ≤ a.2.length)
      (sortedSummaryGroups records groupBy) ∧
    (∀ c : Nat,
      ((sortedSummaryGroups records groupBy).filter
        (fun e => e.2.length == c)).map (fun e => e.1) =
      ((buildSummaryGroups records groupBy).filter
        (fun e => e.2.length == c)).map (fun e => e.1)) := by
  constructor
  · exact sortCountDesc_sorted _
  · intro c
    unfold sortedSummaryGroups
    rw [sortCountDesc_filter, jsObjectEntries_of_no_index _ hkeys]

/-- The three-record scenario (states Active, Active, Closed). -/
def stateRecords : List WorkItem :=
  [{ id := 1, fields := [("System.State", JsValue.str "Active")] },
   { id := 2, fields := [("System.State", JsValue.str "Active")] },
   { id := 3, fields := [("System.State", JsValue.str "Closed")] }]

/-- Witness for claim C8 (amended) on the Active/Active/Closed record
set. -/
theorem claim_C8_amended_witness :
    List.Pairwise (fun a b => b.2.length ≤ a.2.length)
      (sortedSummaryGroups stateRecords "System.State") ∧
    (∀ c : Nat,
      ((sortedSummaryGroups stateRecords "System.State").filter
        (fun e => e.2.length == c)).map (fun e => e.1) =
      ((buildSummaryGroups stateRecords "System.State").filter
        (fun e => e.2.length == c)).map (fun e => e.1)) :=
  claim_C8_amended stateRecords "System.State" (by decide)

/-!  ## Normalizer scenario (claim C5) -/

set_option maxRecDepth 16000 in
/-- Claim C5, as stated, is refuted: the alias table has no entry for
`Id`, so the bare token `[Id]` is not rewritten to `[System.Id]` (the
repository's own tests never expect `[Id]` to be rewritten). -/
theorem claim_C5_counterexample :
    normalizeWiqlFieldNames "SELECT [Id],[Title],[ClosedDate] FROM WorkItems" ≠
      "SELECT [System.Id],[System.Title],[Microsoft.VSTS.Common.ClosedDate] FROM WorkItems" := by
  decide

set_option maxRecDepth 16000 in
/-- Claim C5 (amended): the query normalizes to
`SELECT [Id],[System.Title],[Microsoft.VSTS.Common.ClosedDate] FROM
WorkItems` — `[Title]` receives the default System namespace prefix and
`[ClosedDate]` its specific Microsoft.VSTS.Common namespace, while
`[Id]` (absent from the alias table) is left untouched. -/
theorem claim_C5_amended :
    normalizeWiqlFieldNames "SELECT [Id],[Title],[ClosedDate] FROM WorkItems" =
      "SELECT [Id],[System.Title],[Microsoft.VSTS.Common.ClosedDate] FROM WorkItems" := by
  decide

/-!  ## Tokenizer characterization of the normalizer.

Every rewrite pattern of the normalizer has the shape `[core]` with a
bracket-free core, so each replace-all pass acts tokenwise on the
bracket-delimited tokens of the query.  The tokenizer `tmGo` makes this
structure explicit; the equivalence is proved below and yields the
idempotence and literal-preservation properties. -/

theorem char_toNat_ofNat (n : Nat) (h : n.isValidChar) : (Char.ofNat n).toNat = n := by
  unfold Char.ofNat
  rw [dif_pos h]
  unfold Char.ofNatAux
  simp [Char.toNat]
  rfl

/-- `toLower` moves only uppercase ASCII letters (to lowercase ASCII
letters); a character outside both ranges is a fixed point and is hit
by nothing else. -/
theorem toLower_eq_special (d ch : Char) (h1 : 90 < d.toNat ∨ d.toNat < 65)
    (h2 : d.toNat < 97 ∨ 122 < d.toNat) : ch.toLower = d ↔ ch = d := by
  constructor
  · intro h
    unfold Char.toLower at h
    have h3 : (if ch.toNat ≥ 65 ∧ ch.toNat ≤ 90 then Char.ofNat (ch.toNat + 32) else ch) = d := h
    split at h3
    · exfalso
      rename_i hrange
      have h4 := congrArg Char.toNat h3
      have hv : (ch.toNat + 32).isValidChar := by
        left
        omega
      rw [char_toNat_ofNat _ hv] at h4
      omega
    · exact h3
  · intro h
    subst h
    unfold Char.toLower
    have h3 : ¬(ch.toNat ≥ 65 ∧ ch.toNat ≤ 90) := by omega
    simp only [h3, if_false]

theorem ciEqChar_comm (a b : Char) : ciEqChar a b = ciEqChar b a := by
  unfold ciEqChar
  by_cases h : a.toLower = b.toLower
  · simp [h]
  · simp [h, Ne.symm h]

theorem ciEq_special_iff (d ch : Char) (h1 : 90 < d.toNat ∨ d.toNat < 65)
    (h2 : d.toNat < 97 ∨ 122 < d.toNat) : ciEqChar d ch = true ↔ ch = d := by
  unfold ciEqChar
  have hd : d.toLower = d := (toLower_eq_special d d h1 h2).mpr rfl
  rw [hd, beq_iff_eq]
  constructor
  · intro h
    exact (toLower_eq_special d ch h1 h2).mp h.symm
  · intro h
    subst h
    exact hd.symm

theorem ciEq_lb (ch : Char) : ciEqChar '[' ch = true ↔ ch = '[' :=
  ciEq_special_iff '[' ch (by decide) (by decide)

theorem ciEq_rb (ch : Char) : ciEqChar ']' ch = true ↔ ch = ']' :=
  ciEq_special_iff ']' ch (by decide) (by decide)

theorem ciEq_squote (ch : Char) : ciEqChar squote ch = true ↔ ch = squote :=
  ciEq_special_iff squote ch (by decide) (by decide)

/-- Case-insensitive list equality (same length, pointwise
case-insensitive characters). -/
def ciListEq : List Char → List Char → Bool
  | [], [] => true
  | a :: as, b :: bs => ciEqChar a b && ciListEq as bs
  | _, _ => false

theorem ciListEq_comm (a b : List Char) : ciListEq a b = ciListEq b a := by
  induction a generalizing b with
  | nil => cases b <;> rfl
  | cons x xs ih =>
    cases b with
    | nil => rfl
    | cons y ys =>
      simp only [ciListEq, ciEqChar_comm x y, ih ys]

/-- Membership of a special character transfers through `ciListEq`. -/
theorem ciListEq_mem_special (d : Char) (h1 : 90 < d.toNat ∨ d.toNat < 65)
    (h2 : d.toNat < 97 ∨ 122 < d.toNat) :
    ∀ (x c : List Char), ciListEq x c = true → d ∈ x → d ∈ c := by
  intro x
  induction x with
  | nil => intro c h hm; cases hm
  | cons a as ih =>
    intro c h hm
    cases c with
    | nil => cases h
    | cons b bs =>
      simp only [ciListEq, Bool.and_eq_true] at h
      rcases List.mem_cons.mp hm with heq | hm2
      · have h5 : ciEqChar d b = true := by
          rw [heq]
          exact h.1
        have hb : b = d := (ciEq_special_iff d b h1 h2).mp h5
        rw [hb]
        exact List.mem_cons_self _ _
      · exact List.mem_cons_of_mem b (ih bs h.2 hm2)

/-- The tokenizer: scans a string, treating each maximal bracket-free
segment enclosed in `[` and `]` as a token whose content is transformed
by `f`.  The state `some acc` holds the (reversed) content consumed so
far inside an open bracket. -/
def tmGo (f : List Char → List Char) : List Char → Option (List Char) → List Char
  | [], none => []
  | [], some acc => '[' :: acc.reverse
  | c :: rest, none =>
    if c = '[' then tmGo f rest (some []) else c :: tmGo f rest none
  | c :: rest, some acc =>
    if c = ']' then '[' :: f acc.reverse ++ ']' :: tmGo f rest none
    else if c = '[' then '[' :: acc.reverse ++ tmGo f rest (some [])
    else tmGo f rest (some (c :: acc))

theorem tmGo_cons_none (f : List Char → List Char) (c : Char) (rest : List Char) :
    tmGo f (c :: rest) none =
      if c = '[' then tmGo f rest (some []) else c :: tmGo f rest none := rfl

theorem tmGo_cons_some (f : List Char → List Char) (c : Char) (rest acc : List Char) :
    tmGo f (c :: rest) (some acc) =
      if c = ']' then '[' :: f acc.reverse ++ ']' :: tmGo f rest none
      else if c = '[' then '[' :: acc.reverse ++ tmGo f rest (some [])
      else tmGo f rest (some (c :: acc)) := rfl

/-- Copying lemma: in the outside state, a `[`-free prefix is emitted
verbatim. -/
theorem tmGo_copy (f : List Char → List Char) (u v : List Char)
    (hu : ∀ ch ∈ u, ch ≠ '[') :
    tmGo f (u ++ v) none = u ++ tmGo f v none := by
  induction u with
  | nil => rfl
  | cons c u2 ih =>
    have hc : c ≠ '[' := (hu c (List.mem_cons_self c u2))
    rw [List.cons_append, tmGo_cons_none, if_neg hc,
      ih (fun ch h => hu ch (List.mem_cons_of_mem c h)), List.cons_append]

/-- Accumulation lemma: in the inside state, a bracket-free segment is
consumed into the accumulator. -/
theorem tmGo_accum (f : List Char → List Char) (u : List Char)
    (hu : ∀ ch ∈ u, ch ≠ '[' ∧ ch ≠ ']') :
    ∀ (v acc : List Char), tmGo f (u ++ v) (some acc) = tmGo f v (some (u.reverse ++ acc)) := by
  induction u with
  | nil => intro v acc; rfl
  | cons c u2 ih =>
    intro v acc
    have hc := hu c (List.mem_cons_self c u2)
    rw [List.cons_append, tmGo_cons_some, if_neg hc.2, if_neg hc.1,
      ih (fun ch h => hu ch (List.mem_cons_of_mem c h)) v (c :: acc)]
    simp

/-- Every inside-state output starts with `[`. -/
theorem tmGo_some_head (f : List Char → List Char) :
    ∀ (s : List Char) (acc : List Char), ∃ tail, tmGo f s (some acc) = '[' :: tail := by
  intro s
  induction s with
  | nil => intro acc; exact ⟨acc.reverse, rfl⟩
  | cons c rest ih =>
    intro acc
    simp only [tmGo]
    by_cases h1 : c = ']'
    · rw [if_pos h1]
      exact ⟨f acc.reverse ++ ']' :: tmGo f rest none, rfl⟩
    · rw [if_neg h1]
      by_cases h2 : c = '['
      · rw [if_pos h2]
        exact ⟨acc.reverse ++ tmGo f rest (some []), rfl⟩
      · rw [if_neg h2]
        exact ih (c :: acc)

theorem ciEq_false_of_ne_lb (ch : Char) (h : ch ≠ '[') : ciEqChar '[' ch = false := by
  rcases hh : ciEqChar '[' ch with _ | _
  · rfl
  · exact absurd ((ciEq_lb ch).mp hh) h

theorem ciEq_false_of_ne_rb (a : Char) (h : a ≠ ']') : ciEqChar a ']' = false := by
  rcases hh : ciEqChar a ']' with _ | _
  · rfl
  · rw [ciEqChar_comm] at hh
    exact absurd ((ciEq_rb a).mp hh) h

theorem ciEq_false_of_ne_lb2 (a : Char) (h : a ≠ '[') : ciEqChar a '[' = false := by
  rcases hh : ciEqChar a '[' with _ | _
  · rfl
  · rw [ciEqChar_comm] at hh
    exact absurd ((ciEq_lb a).mp hh) h

theorem ciListEq_length (a b : List Char) (h : ciListEq a b = true) : a.length = b.length := by
  induction a generalizing b with
  | nil => cases b with
    | nil => rfl
    | cons y ys => cases h
  | cons x xs ih =>
    cases b with
    | nil => cases h
    | cons y ys =>
      simp only [ciListEq, Bool.and_eq_true] at h
      simp only [List.length_cons, ih ys h.2]

/-- Scanning past characters that cannot begin a match. -/
theorem replaceAll_pass (eqc : Char → Char → Bool) (ph : Char) (pt rep : List Char)
    (u v : List Char) (hu : ∀ ch ∈ u, eqc ph ch = false) :
    replaceAllBy eqc (ph :: pt) rep (u ++ v) = u ++ replaceAllBy eqc (ph :: pt) rep v := by
  induction u with
  | nil => rfl
  | cons a u2 ih =>
    rw [List.cons_append, replaceAllBy_cons eqc (ph :: pt) rep (by simp)]
    have hl : leadsBy eqc (ph :: pt) (a :: (u2 ++ v)) = false := by
      show (eqc ph a && leadsBy eqc pt (u2 ++ v)) = false
      rw [hu a (List.mem_cons_self a u2)]
      rfl
    rw [if_neg (by simp [hl]), ih (fun ch h => hu ch (List.mem_cons_of_mem a h)),
      List.cons_append]

/-- Pattern-tail match against a closed token: succeeds exactly on
case-insensitive equality of the cores. -/
theorem leadsBy_token (c : List Char) (hcB : ∀ ch ∈ c, ch ≠ '[' ∧ ch ≠ ']') :
    ∀ (core rest4 : List Char), (∀ ch ∈ core, ch ≠ '[' ∧ ch ≠ ']') →
      leadsBy ciEqChar (c ++ [']']) (core ++ ']' :: rest4) = ciListEq c core := by
  induction c with
  | nil =>
    intro core rest4 hcore
    cases core with
    | nil => simp [leadsBy, ciListEq, ciEqChar]
    | cons x core2 =>
      have hx : ciEqChar ']' x = false := by
        rcases hh : ciEqChar ']' x with _ | _
        · rfl
        · exact absurd ((ciEq_rb x).mp hh) (hcore x (List.mem_cons_self x core2)).2
      simp [leadsBy, ciListEq, hx]
  | cons a c3 ih =>
    intro core rest4 hcore
    cases core with
    | nil =>
      have ha : ciEqChar a ']' = false :=
        ciEq_false_of_ne_rb a (hcB a (List.mem_cons_self a c3)).2
      simp [leadsBy, ciListEq, ha]
    | cons x core2 =>
      simp only [List.cons_append, leadsBy, ciListEq, List.append_eq]
      rw [ih (fun ch h => hcB ch (List.mem_cons_of_mem a h)) core2 rest4
        (fun ch h => hcore ch (List.mem_cons_of_mem x h))]

/-- Pattern-tail match against an unterminated or re-opened token:
always fails (the pattern requires a closing bracket). -/
theorem leadsBy_token_lb (c : List Char) (hcB : ∀ ch ∈ c, ch ≠ '[' ∧ ch ≠ ']') :
    ∀ (core rest4 : List Char), (∀ ch ∈ core, ch ≠ '[' ∧ ch ≠ ']') →
      leadsBy ciEqChar (c ++ [']']) (core ++ '[' :: rest4) = false := by
  induction c with
  | nil =>
    intro core rest4 hcore
    cases core with
    | nil => simp [leadsBy, ciEqChar]
    | cons x core2 =>
      have hx : ciEqChar ']' x = false := by
        rcases hh : ciEqChar ']' x with _ | _
        · rfl
        · exact absurd ((ciEq_rb x).mp hh) (hcore x (List.mem_cons_self x core2)).2
      simp [leadsBy, hx]
  | cons a c3 ih =>
    intro core rest4 hcore
    cases core with
    | nil =>
      have ha : ciEqChar a '[' = false :=
        ciEq_false_of_ne_lb2 a (hcB a (List.mem_cons_self a c3)).1
      simp [leadsBy, ha]
    | cons x core2 =>
      simp only [List.cons_append, leadsBy, List.append_eq]
      rw [ih (fun ch h => hcB ch (List.mem_cons_of_mem a h)) core2 rest4
        (fun ch h => hcore ch (List.mem_cons_of_mem x h))]
      simp

/-- Pattern-tail match against a bracket-free remainder: always fails. -/
theorem leadsBy_token_end (c : List Char) (hcB : ∀ ch ∈ c, ch ≠ '[' ∧ ch ≠ ']') :
    ∀ (core : List Char), (∀ ch ∈ core, ch ≠ '[' ∧ ch ≠ ']') →
      leadsBy ciEqChar (c ++ [']']) core = false := by
  induction c with
  | nil =>
    intro core hcore
    cases core with
    | nil => rfl
    | cons x core2 =>
      have hx : ciEqChar ']' x = false := by
        rcases hh : ciEqChar ']' x with _ | _
        · rfl
        · exact absurd ((ciEq_rb x).mp hh) (hcore x (List.mem_cons_self x core2)).2
      simp [leadsBy, hx]
  | cons a c3 ih =>
    intro core hcore
    cases core with
    | nil => rfl
    | cons x core2 =>
      simp only [List.cons_append, leadsBy, List.append_eq]
      rw [ih (fun ch h => hcB ch (List.mem_cons_of_mem a h)) core2
        (fun ch h => hcore ch (List.mem_cons_of_mem x h))]
      simp

/-- Whether a character is not a bracket. -/
def notBrk (ch : Char) : Bool := !(ch == '[') && !(ch == ']')

theorem dropWhile_head_false (p : Char → Bool) (l : List Char) (c : Char) (t : List Char)
    (h : l.dropWhile p = c :: t) : p c = false := by
  induction l with
  | nil => cases h
  | cons a l2 ih =>
    simp only [List.dropWhile] at h
    split at h
    · exact ih h
    · rename_i hpa
      injection h with h1 h2
      rw [← h1]
      exact hpa

theorem tmGo_nil_some (f : List Char → List Char) (acc : List Char) :
    tmGo f [] (some acc) = '[' :: acc.reverse := rfl

/-- The core equivalence: one replace-all pass with pattern `[c]` and
replacement `[c2]` (bracket-free core `c`) acts tokenwise on the
bracket-delimited tokens of the subject string. -/
theorem replaceAll_eq_tmGo (c c2 : List Char) (hc : c ≠ [])
    (hcB : ∀ ch ∈ c, ch ≠ '[' ∧ ch ≠ ']') :
    ∀ (n : Nat) (s : List Char), s.length ≤ n →
      replaceAllBy ciEqChar ('[' :: (c ++ [']'])) ('[' :: (c2 ++ [']'])) s =
      tmGo (fun x => if ciListEq x c then c2 else x) s none := by
  intro n
  induction n with
  | zero =>
    intro s hn
    have hs : s = [] := List.eq_nil_of_length_eq_zero (Nat.le_zero.mp hn)
    subst hs
    rw [replaceAllBy_nil]
    rfl
  | succ n ih =>
    intro s hn
    set f : List Char → List Char := fun x => if ciListEq x c then c2 else x with hf
    cases s with
    | nil =>
      rw [replaceAllBy_nil]
      rfl
    | cons ch rest =>
      have hp : ('[' :: (c ++ [']']) : List Char) ≠ [] := by simp
      by_cases hch : ch = '['
      · subst hch
        have hsplit : rest.takeWhile notBrk ++ rest.dropWhile notBrk = rest :=
          List.takeWhile_append_dropWhile notBrk rest
        have htwB : ∀ ch2 ∈ rest.takeWhile notBrk, ch2 ≠ '[' ∧ ch2 ≠ ']' := by
          intro ch2 h2
          have h3 := List.mem_takeWhile_imp h2
          simp only [notBrk, Bool.and_eq_true, Bool.not_eq_true', beq_eq_false_iff_ne,
            ne_eq] at h3
          exact h3
        set tw := rest.takeWhile notBrk with htw_def
        rcases hdw : rest.dropWhile notBrk with _ | ⟨d, rest4⟩
        · -- no further bracket: the open bracket never closes
          have hrest : rest = tw := by
            rw [← hsplit, hdw, List.append_nil]
          rw [replaceAllBy_cons _ _ _ hp]
          have hlead : leadsBy ciEqChar ('[' :: (c ++ [']'])) ('[' :: rest) = false := by
            show (ciEqChar '[' '[' && leadsBy ciEqChar (c ++ [']']) rest) = false
            rw [hrest, leadsBy_token_end c hcB tw htwB]
            simp
          rw [if_neg (by simp [hlead])]
          have hpass : replaceAllBy ciEqChar ('[' :: (c ++ [']'])) ('[' :: (c2 ++ [']'])) tw = tw := by
            have h4 := replaceAll_pass ciEqChar '[' (c ++ [']']) ('[' :: (c2 ++ [']'])) tw []
              (fun ch2 h2 => ciEq_false_of_ne_lb ch2 (htwB ch2 h2).1)
            rw [List.append_nil] at h4
            rw [h4, replaceAllBy_nil, List.append_nil]
          rw [hrest, hpass, tmGo_cons_none, if_pos rfl]
          have h5 := tmGo_accum f tw htwB [] []
          rw [List.append_nil] at h5
          rw [h5, tmGo_nil_some]
          simp
        · have hd := dropWhile_head_false notBrk rest d rest4 hdw
          simp only [notBrk, Bool.and_eq_false_iff, Bool.not_eq_false', beq_iff_eq] at hd
          have hrest : rest = tw ++ d :: rest4 := by
            rw [← hsplit, hdw]
          have hlen : tw.length + rest4.length + 1 ≤ n := by
            have h6 := congrArg List.length hrest
            simp only [List.length_append, List.length_cons] at h6
            simp only [List.length_cons] at hn
            omega
          rcases hd with hd | hd
          · -- next bracket char is '[' : token re-opens
            subst hd
            rw [replaceAllBy_cons _ _ _ hp]
            have hlead : leadsBy ciEqChar ('[' :: (c ++ [']'])) ('[' :: rest) = false := by
              show (ciEqChar '[' '[' && leadsBy ciEqChar (c ++ [']']) rest) = false
              rw [hrest, leadsBy_token_lb c hcB tw rest4 htwB]
              simp
            rw [if_neg (by simp [hlead])]
            have hpass : replaceAllBy ciEqChar ('[' :: (c ++ [']'])) ('[' :: (c2 ++ [']'])) rest =
                tw ++ replaceAllBy ciEqChar ('[' :: (c ++ [']'])) ('[' :: (c2 ++ [']']))
                  ('[' :: rest4) := by
              rw [hrest]
              exact replaceAll_pass ciEqChar '[' (c ++ [']']) ('[' :: (c2 ++ [']'])) tw
                ('[' :: rest4) (fun ch2 h2 => ciEq_false_of_ne_lb ch2 (htwB ch2 h2).1)
            rw [hpass, ih ('[' :: rest4) (by simp only [List.length_cons]; omega)]
            rw [tmGo_cons_none, if_pos rfl]
            rw [tmGo_cons_none, if_pos rfl]
            rw [hrest]
            have h5 := tmGo_accum f tw htwB ('[' :: rest4) []
            rw [List.append_nil] at h5
            rw [h5, tmGo_cons_some, if_neg (by decide), if_pos rfl]
            simp
          · -- next bracket char is ']' : a complete token
            subst hd
            by_cases hmatch : ciListEq c tw = true
            · rw [replaceAllBy_cons _ _ _ hp]
              have hlead : leadsBy ciEqChar ('[' :: (c ++ [']'])) ('[' :: rest) = true := by
                show (ciEqChar '[' '[' && leadsBy ciEqChar (c ++ [']']) rest) = true
                rw [hrest, leadsBy_token c hcB tw rest4 htwB, hmatch]
                rfl
              rw [if_pos hlead]
              have hlentw := ciListEq_length c tw hmatch
              have hdrop : List.drop ('[' :: (c ++ [']'])).length ('[' :: rest) = rest4 := by
                have he : ('[' :: rest : List Char) = ('[' :: (tw ++ [']'])) ++ rest4 := by
                  rw [hrest]
                  simp
                rw [he]
                have hl2 : ('[' :: (c ++ [']'])).length = ('[' :: (tw ++ [']'])).length := by
                  simp [hlentw]
                rw [hl2, List.drop_left]
              rw [hdrop, ih rest4 (by omega)]
              rw [tmGo_cons_none, if_pos rfl, hrest]
              have h5 := tmGo_accum f tw htwB (']' :: rest4) []
              rw [List.append_nil] at h5
              rw [h5, tmGo_cons_some, if_pos rfl, List.reverse_reverse]
              have hftw : f tw = c2 := by
                show (if ciListEq tw c then c2 else tw) = c2
                rw [ciListEq_comm] at hmatch
                rw [if_pos hmatch]
              rw [hftw]
              simp
            · rw [replaceAllBy_cons _ _ _ hp]
              have hlead : leadsBy ciEqChar ('[' :: (c ++ [']'])) ('[' :: rest) = false := by
                show (ciEqChar '[' '[' && leadsBy ciEqChar (c ++ [']']) rest) = false
                rw [hrest, leadsBy_token c hcB tw rest4 htwB]
                simp only [Bool.and_eq_false_iff]
                right
                rcases h7 : ciListEq c tw with _ | _
                · rfl
                · exact absurd h7 hmatch
              rw [if_neg (by simp [hlead])]
              have hpass : replaceAllBy ciEqChar ('[' :: (c ++ [']'])) ('[' :: (c2 ++ [']'])) rest =
                  tw ++ replaceAllBy ciEqChar ('[' :: (c ++ [']'])) ('[' :: (c2 ++ [']']))
                    (']' :: rest4) := by
                rw [hrest]
                exact replaceAll_pass ciEqChar '[' (c ++ [']']) ('[' :: (c2 ++ [']'])) tw
                  (']' :: rest4) (fun ch2 h2 => ciEq_false_of_ne_lb ch2 (htwB ch2 h2).1)
              have hstep : replaceAllBy ciEqChar ('[' :: (c ++ [']'])) ('[' :: (c2 ++ [']']))
                  (']' :: rest4) = ']' :: replaceAllBy ciEqChar ('[' :: (c ++ [']']))
                    ('[' :: (c2 ++ [']'])) rest4 := by
                rw [replaceAllBy_cons _ _ _ hp]
                have hl3 : leadsBy ciEqChar ('[' :: (c ++ [']'])) (']' :: rest4) = false := by
                  show (ciEqChar '[' ']' && leadsBy ciEqChar (c ++ [']']) rest4) = false
                  rw [show ciEqChar '[' ']' = false from by decide]
                  rfl
                rw [if_neg (by simp [hl3])]
              rw [hpass, hstep, ih rest4 (by omega)]
              rw [tmGo_cons_none, if_pos rfl, hrest]
              have h5 := tmGo_accum f tw htwB (']' :: rest4) []
              rw [List.append_nil] at h5
              rw [h5, tmGo_cons_some, if_pos rfl, List.reverse_reverse]
              have hftw : f tw = tw := by
                show (if ciListEq tw c then c2 else tw) = tw
                rw [ciListEq_comm] at hmatch
                rw [if_neg (by simp [hmatch])]
              rw [hftw]
              simp
      · -- head is not '[' : copied by both sides
        rw [replaceAllBy_cons _ _ _ hp]
        have hlead : leadsBy ciEqChar ('[' :: (c ++ [']'])) (ch :: rest) = false := by
          show (ciEqChar '[' ch && leadsBy ciEqChar (c ++ [']']) rest) = false
          rw [ciEq_false_of_ne_lb ch hch]
          rfl
        rw [if_neg (by simp [hlead])]
        rw [tmGo_cons_none, if_neg hch]
        rw [ih rest (by simp only [List.length_cons] at hn; omega)]

/-!  ## Rule-list representation of the normalizer

Each alias contributes one or two rewrite rules (pattern core ↦
replacement core).  A single `replaceAllBy` pass with bracketed pattern
equals a `tmGo` pass with the corresponding one-rule core function
(`replaceAll_eq_tmGo`); composing the passes yields a single `tmGo`
pass with the composed core function. -/

def ruleFun (c c2 : List Char) (x : List Char) : List Char :=
  if ciListEq x c then c2 else x

def aliasRules (af : String × String) : List (List Char × List Char) :=
  (af.1.data, af.2.data) ::
    (if leadsBy csEqChar "Microsoft.VSTS.".data af.2.data then
      [("System.".data ++ af.1.data, af.2.data)] else [])

def wiqlRules : List (List Char × List Char) :=
  WIQL_FIELD_ALIASES.flatMap aliasRules

def rulesFun : List (List Char × List Char) → List Char → List Char
  | [], x => x
  | r :: rs, x => rulesFun rs (ruleFun r.1 r.2 x)

def tmPasses (rs : List (List Char × List Char)) (s : List Char) : List Char :=
  rs.foldl (fun acc r => tmGo (ruleFun r.1 r.2) acc none) s

theorem tmGo_id :
    ∀ s : List Char, (tmGo (fun x => x) s none = s) ∧
      (∀ acc, tmGo (fun x => x) s (some acc) = '[' :: acc.reverse ++ s) := by
  intro s
  induction s with
  | nil => exact ⟨rfl, fun acc => by rw [tmGo_nil_some]; simp⟩
  | cons c rest ih =>
    constructor
    · by_cases hc : c = '['
      · subst hc
        rw [tmGo_cons_none, if_pos rfl, ih.2 []]
        simp
      · rw [tmGo_cons_none, if_neg hc, ih.1]
    · intro acc
      by_cases h1 : c = ']'
      · subst h1
        rw [tmGo_cons_some, if_pos rfl, ih.1]
      · by_cases h2 : c = '['
        · subst h2
          rw [tmGo_cons_some, if_neg (by decide), if_pos rfl, ih.2 []]
          simp
        · rw [tmGo_cons_some, if_neg h1, if_neg h2, ih.2 (c :: acc)]
          simp

/-- Composition of two scanner passes: running `tmGo g` and then `tmGo f`
equals one `tmGo` pass with the composed core function, provided `g`
maps bracket-free cores to bracket-free outputs. -/
theorem tmGo_comp (f g : List Char → List Char)
    (hg : ∀ x, (∀ ch ∈ x, ch ≠ '[' ∧ ch ≠ ']') → ∀ ch ∈ g x, ch ≠ '[' ∧ ch ≠ ']') :
    ∀ s : List Char,
      (tmGo f (tmGo g s none) none = tmGo (fun x => f (g x)) s none) ∧
      (∀ acc, (∀ ch ∈ acc, ch ≠ '[' ∧ ch ≠ ']') →
        tmGo f (tmGo g s (some acc)) none = tmGo (fun x => f (g x)) s (some acc)) := by
  intro s
  induction s with
  | nil =>
    refine ⟨rfl, fun acc hacc => ?_⟩
    have hrev : ∀ ch ∈ acc.reverse, ch ≠ '[' ∧ ch ≠ ']' := by
      intro ch h
      exact hacc ch (List.mem_reverse.mp h)
    have h2 := tmGo_accum f acc.reverse hrev [] []
    simp only [List.append_nil, List.reverse_reverse] at h2
    rw [tmGo_nil_some, tmGo_cons_none, if_pos rfl, h2, tmGo_nil_some, tmGo_nil_some]
  | cons c rest ih =>
    constructor
    · by_cases hc : c = '['
      · subst hc
        rw [tmGo_cons_none g, if_pos rfl, tmGo_cons_none, if_pos rfl]
        exact ih.2 [] (by simp)
      · rw [tmGo_cons_none g, if_neg hc, tmGo_cons_none f, if_neg hc,
          tmGo_cons_none, if_neg hc, ih.1]
    · intro acc hacc
      have hrev : ∀ ch ∈ acc.reverse, ch ≠ '[' ∧ ch ≠ ']' := by
        intro ch h
        exact hacc ch (List.mem_reverse.mp h)
      by_cases h1 : c = ']'
      · subst h1
        rw [tmGo_cons_some g, if_pos rfl, tmGo_cons_some, if_pos rfl]
        simp only [List.cons_append]
        rw [tmGo_cons_none, if_pos rfl,
          tmGo_accum f (g acc.reverse) (hg acc.reverse hrev) (']' :: tmGo g rest none) [],
          tmGo_cons_some, if_pos rfl, ih.1]
        simp
      · by_cases h2 : c = '['
        · subst h2
          rw [tmGo_cons_some g, if_neg (by decide), if_pos rfl,
            tmGo_cons_some, if_neg (by decide), if_pos rfl]
          simp only [List.cons_append]
          rw [tmGo_cons_none, if_pos rfl, tmGo_accum f acc.reverse hrev]
          simp only [List.append_nil, List.reverse_reverse]
          obtain ⟨T, hT⟩ := tmGo_some_head g rest []
          have h6 := ih.2 [] (by simp)
          rw [hT, tmGo_cons_none, if_pos rfl] at h6
          rw [hT, tmGo_cons_some, if_neg (by decide), if_pos rfl, h6]
          simp
        · rw [tmGo_cons_some g, if_neg h1, if_neg h2, tmGo_cons_some, if_neg h1, if_neg h2]
          refine ih.2 (c :: acc) ?_
          intro ch h
          rcases List.mem_cons.mp h with h3 | h3
          · subst h3; exact ⟨h2, h1⟩
          · exact hacc ch h3

set_option maxRecDepth 16000 in
theorem aliases_ok : ∀ af ∈ WIQL_FIELD_ALIASES,
    af.1.data ≠ [] ∧ (∀ ch ∈ af.1.data, ch ≠ '[' ∧ ch ≠ ']') ∧
    (∀ ch ∈ af.2.data, ch ≠ '[' ∧ ch ≠ ']') := by decide

set_option maxRecDepth 16000 in
theorem wiqlRules_ok : ∀ r ∈ wiqlRules,
    r.1 ≠ [] ∧ (∀ ch ∈ r.1, ch ≠ '[' ∧ ch ≠ ']') ∧
    (∀ ch ∈ r.2, ch ≠ '[' ∧ ch ≠ ']') := by decide

set_option maxRecDepth 100000 in
set_option maxHeartbeats 2000000 in
theorem aliasCanon_fixed : ∀ af ∈ WIQL_FIELD_ALIASES, ∀ r ∈ wiqlRules,
    ruleFun r.1 r.2 af.2.data = af.2.data := by decide

set_option maxRecDepth 16000 in
theorem wiqlRules_rhs_mem : ∀ r ∈ wiqlRules,
    ∃ af ∈ WIQL_FIELD_ALIASES, r.2 = af.2.data := by decide

theorem ruleFun_brfree (c c2 : List Char) (h2 : ∀ ch ∈ c2, ch ≠ '[' ∧ ch ≠ ']') :
    ∀ x, (∀ ch ∈ x, ch ≠ '[' ∧ ch ≠ ']') → ∀ ch ∈ ruleFun c c2 x, ch ≠ '[' ∧ ch ≠ ']' := by
  intro x hx ch hch
  unfold ruleFun at hch
  by_cases h : ciListEq x c = true
  · rw [if_pos h] at hch
    exact h2 ch hch
  · rw [if_neg h] at hch
    exact hx ch hch

theorem rulesFun_fix : ∀ (rs : List (List Char × List Char)) (y : List Char),
    (∀ r ∈ rs, ruleFun r.1 r.2 y = y) → rulesFun rs y = y := by
  intro rs
  induction rs with
  | nil => intro y _; rfl
  | cons r rest ih =>
    intro y h
    show rulesFun rest (ruleFun r.1 r.2 y) = y
    rw [h r (List.mem_cons_self r rest)]
    exact ih y (fun r2 h2 => h r2 (List.mem_cons_of_mem r h2))

theorem rulesFun_range : ∀ (rs : List (List Char × List Char)) (x : List Char),
    rulesFun rs x = x ∨ ∃ r ∈ rs, rulesFun rs x = r.2 := by
  intro rs
  induction rs with
  | nil => intro x; exact Or.inl rfl
  | cons r rest ih =>
    intro x
    simp only [rulesFun]
    by_cases h : ciListEq x r.1 = true
    · have he : ruleFun r.1 r.2 x = r.2 := if_pos h
      simp only [he]
      rcases ih r.2 with h2 | ⟨r2, hr2, h2⟩
      · exact Or.inr ⟨r, List.mem_cons_self r rest, h2⟩
      · exact Or.inr ⟨r2, List.mem_cons_of_mem r hr2, h2⟩
    · have he : ruleFun r.1 r.2 x = x := if_neg h
      simp only [he]
      rcases ih x with h2 | ⟨r2, hr2, h2⟩
      · exact Or.inl h2
      · exact Or.inr ⟨r2, List.mem_cons_of_mem r hr2, h2⟩

theorem bigG_rhs_fixed (r : List Char × List Char) (hr : r ∈ wiqlRules) :
    rulesFun wiqlRules r.2 = r.2 := by
  obtain ⟨af, haf, he⟩ := wiqlRules_rhs_mem r hr
  rw [he]
  exact rulesFun_fix wiqlRules af.2.data (fun r2 h2 => aliasCanon_fixed af haf r2 h2)

theorem rulesFun_idem (x : List Char) :
    rulesFun wiqlRules (rulesFun wiqlRules x) = rulesFun wiqlRules x := by
  rcases rulesFun_range wiqlRules x with h | ⟨r, hr, h⟩
  · rw [h]
    exact h
  · rw [h]
    exact bigG_rhs_fixed r hr

theorem bigG_brfree : ∀ x, (∀ ch ∈ x, ch ≠ '[' ∧ ch ≠ ']') →
    ∀ ch ∈ rulesFun wiqlRules x, ch ≠ '[' ∧ ch ≠ ']' := by
  intro x hx
  rcases rulesFun_range wiqlRules x with h | ⟨r, hr, h⟩
  · rw [h]; exact hx
  · rw [h]; exact (wiqlRules_ok r hr).2.2

theorem tmPasses_append (rs1 rs2 : List (List Char × List Char)) (s : List Char) :
    tmPasses (rs1 ++ rs2) s = tmPasses rs2 (tmPasses rs1 s) := by
  simp [tmPasses, List.foldl_append]

theorem wiqlAliasPass_eq (a full : String)
    (ha : a.data ≠ []) (haB : ∀ ch ∈ a.data, ch ≠ '[' ∧ ch ≠ ']') (s : List Char) :
    wiqlAliasPass s a full = tmPasses (aliasRules (a, full)) s := by
  have h1 : ∀ t : List Char,
      replaceAllBy ciEqChar ('[' :: a.data ++ [']']) ('[' :: full.data ++ [']']) t
        = tmGo (ruleFun a.data full.data) t none := by
    intro t
    rw [List.cons_append, List.cons_append]
    exact replaceAll_eq_tmGo a.data full.data ha haB t.length t le_rfl
  by_cases hcond : leadsBy csEqChar "Microsoft.VSTS.".data full.data = true
  · have hSB : ∀ ch ∈ "System.".data ++ a.data, ch ≠ '[' ∧ ch ≠ ']' := by
      intro ch h
      rcases List.mem_append.mp h with h2 | h2
      · exact (by decide : ∀ ch ∈ "System.".data, ch ≠ '[' ∧ ch ≠ ']') ch h2
      · exact haB ch h2
    have hne : "System.".data ++ a.data ≠ [] := by simp
    have h2 : ∀ t : List Char,
        replaceAllBy ciEqChar ('[' :: "System.".data ++ a.data ++ [']'])
          ('[' :: full.data ++ [']']) t
          = tmGo (ruleFun ("System.".data ++ a.data) full.data) t none := by
      intro t
      have base := replaceAll_eq_tmGo ("System.".data ++ a.data) full.data hne hSB t.length t le_rfl
      rw [List.append_assoc] at base
      rw [List.cons_append, List.cons_append]
      exact base
    simp only [wiqlAliasPass, aliasRules, tmPasses, if_pos hcond, List.foldl]
    rw [h1, h2]
  · simp only [wiqlAliasPass, aliasRules, tmPasses, if_neg hcond, List.foldl]
    rw [h1]

theorem tmPasses_eq_tmGo : ∀ (rs : List (List Char × List Char)),
    (∀ r ∈ rs, ∀ ch ∈ r.2, ch ≠ '[' ∧ ch ≠ ']') →
    ∀ s, tmPasses rs s = tmGo (rulesFun rs) s none := by
  intro rs
  induction rs with
  | nil => intro _ s; exact ((tmGo_id s).1).symm
  | cons r rest ih =>
    intro h s
    show tmPasses rest (tmGo (ruleFun r.1 r.2) s none) = _
    rw [ih (fun r2 h2 => h r2 (List.mem_cons_of_mem r h2)) _]
    rw [(tmGo_comp (rulesFun rest) (ruleFun r.1 r.2)
      (ruleFun_brfree r.1 r.2 (h r (List.mem_cons_self r rest))) s).1]
    rfl

theorem foldl_pass_eq : ∀ (l : List (String × String)),
    (∀ af ∈ l, af.1.data ≠ [] ∧ (∀ ch ∈ af.1.data, ch ≠ '[' ∧ ch ≠ ']')) →
    ∀ s, l.foldl (fun acc af => wiqlAliasPass acc af.1 af.2) s
      = tmPasses (l.flatMap aliasRules) s := by
  intro l
  induction l with
  | nil => intro _ s; rfl
  | cons af l2 ih =>
    intro h s
    have hh := h af (List.mem_cons_self af l2)
    simp only [List.foldl, List.flatMap_cons]
    rw [wiqlAliasPass_eq af.1 af.2 hh.1 hh.2 s, tmPasses_append]
    exact ih (fun af2 h2 => h af2 (List.mem_cons_of_mem af h2)) _

theorem normalizeWiqlChars_eq (s : List Char) :
    normalizeWiqlChars s = tmGo (rulesFun wiqlRules) s none := by
  show WIQL_FIELD_ALIASES.foldl (fun acc af => wiqlAliasPass acc af.1 af.2) s = _
  rw [foldl_pass_eq WIQL_FIELD_ALIASES
    (fun af h2 => ⟨(aliases_ok af h2).1, (aliases_ok af h2).2.1⟩) s]
  exact tmPasses_eq_tmGo wiqlRules (fun r h2 => (wiqlRules_ok r h2).2.2) s

/-- A single complete token with a bracket-free core is rewritten by the
core function. -/
theorem tmGo_single_token (f : List Char → List Char) (core : List Char)
    (hcore : ∀ ch ∈ core, ch ≠ '[' ∧ ch ≠ ']') :
    tmGo f ('[' :: (core ++ [']'])) none = '[' :: (f core ++ [']']) := by
  rw [tmGo_cons_none, if_pos rfl, tmGo_accum f core hcore [']'] [], tmGo_cons_some, if_pos rfl]
  simp [tmGo]

theorem string_data_mk (l : List Char) : (String.mk l).data = l := rfl

/-- C6 (confirmed): the WIQL Field Reference Normalizer is idempotent —
`normalizeWiqlFieldNames (normalizeWiqlFieldNames q) = normalizeWiqlFieldNames q`
for every query string `q`; moreover the empty string maps to the empty
string, a query containing no `[` character is returned byte-identical,
and a token already in canonical form (`[full]` for any alias table
entry `(alias, full)`) is never rewritten. -/
theorem claim_C6 :
    (∀ q : String, normalizeWiqlFieldNames (normalizeWiqlFieldNames q) = normalizeWiqlFieldNames q) ∧
    normalizeWiqlFieldNames "" = "" ∧
    (∀ q : String, '[' ∉ q.data → normalizeWiqlFieldNames q = q) ∧
    (∀ af ∈ WIQL_FIELD_ALIASES,
      normalizeWiqlChars ('[' :: (af.2.data ++ [']'])) = '[' :: (af.2.data ++ [']'])) := by
  refine ⟨?_, ?_, ?_, ?_⟩
  · intro q
    have key : normalizeWiqlChars (normalizeWiqlChars q.data) = normalizeWiqlChars q.data := by
      rw [normalizeWiqlChars_eq q.data, normalizeWiqlChars_eq,
        (tmGo_comp (rulesFun wiqlRules) (rulesFun wiqlRules) bigG_brfree q.data).1,
        funext rulesFun_idem]
    simp only [normalizeWiqlFieldNames, string_data_mk]
    rw [key]
  · have h0 : normalizeWiqlChars ("".data) = [] := by
      rw [normalizeWiqlChars_eq]
      rfl
    simp only [normalizeWiqlFieldNames]
    rw [h0]
  · intro q hq
    have key : normalizeWiqlChars q.data = q.data := by
      rw [normalizeWiqlChars_eq q.data]
      have h2 := tmGo_copy (rulesFun wiqlRules) q.data []
        (fun ch h => fun he => hq (he ▸ h))
      rw [List.append_nil] at h2
      rw [h2]
      simp [tmGo]
    simp only [normalizeWiqlFieldNames]
    rw [key]
  · intro af haf
    have hfix : rulesFun wiqlRules af.2.data = af.2.data :=
      rulesFun_fix wiqlRules af.2.data (fun r2 h2 => aliasCanon_fixed af haf r2 h2)
    rw [normalizeWiqlChars_eq,
      tmGo_single_token (rulesFun wiqlRules) af.2.data (aliases_ok af haf).2.2, hfix]

set_option maxRecDepth 16000 in
/-- Witness for C6 at concrete inputs. -/
theorem claim_C6_witness :
    normalizeWiqlFieldNames (normalizeWiqlFieldNames "SELECT [Id] FROM WorkItems")
      = normalizeWiqlFieldNames "SELECT [Id] FROM WorkItems" ∧
    normalizeWiqlFieldNames "SELECT 1 FROM WorkItems" = "SELECT 1 FROM WorkItems" ∧
    normalizeWiqlChars ('[' :: (("System.Title" : String).data ++ [']']))
      = '[' :: (("System.Title" : String).data ++ [']']) :=
  ⟨claim_C6.1 "SELECT [Id] FROM WorkItems",
   claim_C6.2.2.1 "SELECT 1 FROM WorkItems" (by decide),
   claim_C6.2.2.2 ("Title", "System.Title") (by decide)⟩

/-!  ## Quoted string literals and the normalizer (C7)

The scanner-based regex passes have no notion of a single-quoted WIQL
string literal: an alias-shaped `[...]` token inside quotes is rewritten
exactly like one outside quotes.  What does survive is any quoted
literal that contains no bracket characters, since every rewrite-rule
pattern requires a bracketed token. -/

set_option maxRecDepth 16000 in
theorem wiqlRules_no_quote : ∀ r ∈ wiqlRules, squote ∉ r.1 := by decide

theorem bigG_fix_quoted : ∀ x, squote ∈ x → rulesFun wiqlRules x = x := by
  intro x hx
  refine rulesFun_fix wiqlRules x (fun r hr => ?_)
  unfold ruleFun
  rcases h : ciListEq x r.1 with _ | _
  · simp [h]
  · exfalso
    have h39 : 90 < squote.toNat ∨ squote.toNat < 65 := by decide
    have h40 : squote.toNat < 97 ∨ 122 < squote.toNat := by decide
    exact wiqlRules_no_quote r hr (ciListEq_mem_special squote h39 h40 x r.1 h hx)

/-- Accumulated inside-token content that contains a quote survives
verbatim (reversed back) somewhere in the scanner output. -/
theorem tmGo_acc_survives (f : List Char → List Char)
    (HF : ∀ x, squote ∈ x → f x = x) :
    ∀ (post acc : List Char), squote ∈ acc →
      ∃ u v, tmGo f post (some acc) = u ++ acc.reverse ++ v := by
  intro post
  induction post with
  | nil =>
    intro acc h
    refine ⟨['['], [], ?_⟩
    rw [tmGo_nil_some]
    simp
  | cons c rest ih =>
    intro acc h
    by_cases h1 : c = ']'
    · subst h1
      refine ⟨['['], ']' :: tmGo f rest none, ?_⟩
      rw [tmGo_cons_some, if_pos rfl, HF acc.reverse (List.mem_reverse.mpr h)]
      simp
    · by_cases h2 : c = '['
      · subst h2
        refine ⟨['['], tmGo f rest (some []), ?_⟩
        rw [tmGo_cons_some, if_neg (by decide), if_pos rfl]
        simp
      · rw [tmGo_cons_some, if_neg h1, if_neg h2]
        obtain ⟨u, v, huv⟩ := ih (c :: acc) (List.mem_cons_of_mem c h)
        refine ⟨u, c :: v, ?_⟩
        rw [huv]
        simp

/-- A quoted, bracket-free literal region of the input occurs verbatim in
the scanner output, from any starting state, provided the core function
fixes every core containing a quote. -/
theorem tmGo_quoted (f : List Char → List Char)
    (HF : ∀ x, squote ∈ x → f x = x)
    (lit : List Char) (hlit : ∀ ch ∈ lit, ch ≠ '[' ∧ ch ≠ ']') :
    ∀ (pre post : List Char) (st : Option (List Char)),
      occursIn (squote :: (lit ++ [squote]))
        (tmGo f (pre ++ (squote :: (lit ++ [squote])) ++ post) st) := by
  intro pre
  induction pre with
  | nil =>
    intro post st
    cases st with
    | none =>
      have hreg : ∀ ch ∈ squote :: (lit ++ [squote]), ch ≠ '[' := by
        intro ch h
        rcases List.mem_cons.mp h with h2 | h2
        · subst h2; decide
        · rcases List.mem_append.mp h2 with h3 | h3
          · exact (hlit ch h3).1
          · simp at h3; subst h3; decide
      rw [List.nil_append, tmGo_copy f (squote :: (lit ++ [squote])) post hreg]
      exact occursIn_append_left _ _ _ ⟨[], [], by simp⟩
    | some acc =>
      have hreg : ∀ ch ∈ squote :: (lit ++ [squote]), ch ≠ '[' ∧ ch ≠ ']' := by
        intro ch h
        rcases List.mem_cons.mp h with h2 | h2
        · subst h2; exact ⟨by decide, by decide⟩
        · rcases List.mem_append.mp h2 with h3 | h3
          · exact hlit ch h3
          · simp at h3; subst h3; exact ⟨by decide, by decide⟩
      rw [List.nil_append, tmGo_accum f _ hreg post acc]
      obtain ⟨u, v, huv⟩ := tmGo_acc_survives f HF post
        ((squote :: (lit ++ [squote])).reverse ++ acc) (by simp)
      rw [huv]
      refine ⟨u ++ acc.reverse, v, ?_⟩
      simp
  | cons c pre2 ih =>
    intro post st
    cases st with
    | none =>
      by_cases hc : c = '['
      · subst hc
        rw [List.cons_append, List.cons_append, tmGo_cons_none, if_pos rfl]
        exact ih post (some [])
      · rw [List.cons_append, List.cons_append, tmGo_cons_none, if_neg hc]
        exact occursIn_append_right _ [c] _ (ih post none)
    | some acc =>
      by_cases h1 : c = ']'
      · subst h1
        rw [List.cons_append, List.cons_append, tmGo_cons_some, if_pos rfl]
        exact occursIn_append_right _ ['['] _
          (occursIn_append_right _ (f acc.reverse) _
            (occursIn_append_right _ [']'] _ (ih post none)))
      · by_cases h2 : c = '['
        · subst h2
          rw [List.cons_append, List.cons_append, tmGo_cons_some, if_neg (by decide), if_pos rfl]
          exact occursIn_append_right _ ['['] _
            (occursIn_append_right _ acc.reverse _ (ih post (some [])))
        · rw [List.cons_append, List.cons_append, tmGo_cons_some, if_neg h1, if_neg h2]
          exact ih post (some (c :: acc))

set_option maxRecDepth 16000 in
/-- C7 (counterexample): it is NOT the case that the characters of every
single-quoted literal of the query survive normalization unchanged: for
`pre = "WHERE X = "`, literal content `[Tags]` and empty tail, the
quoted substring `'[Tags]'` does not occur in the normalized query (it
is rewritten to `'[System.Tags]'`). -/
theorem claim_C7_counterexample :
    ¬ (∀ pre lit post : List Char, squote ∉ lit →
        occursIn (squote :: (lit ++ [squote]))
          (normalizeWiqlChars (pre ++ (squote :: (lit ++ [squote])) ++ post))) := by
  intro h
  have h2 := h "WHERE X = ".data "[Tags]".data [] (by decide)
  revert h2
  decide

/-- C7 (amended): a quoted literal that contains no bracket characters
does survive: for every decomposition `pre ++ quoted-literal ++ post`
with a bracket-free literal body, the quoted literal occurs verbatim in
the normalized query.  (The source's alias patterns are delimited by the
bracket characters only, and quote characters never match an alias core,
but a bracketed alias token inside quotes is still rewritten.) -/
theorem claim_C7_amended (pre lit post : List Char)
    (hlit : ∀ ch ∈ lit, ch ≠ '[' ∧ ch ≠ ']') :
    occursIn (squote :: (lit ++ [squote]))
      (normalizeWiqlChars (pre ++ (squote :: (lit ++ [squote])) ++ post)) := by
  rw [normalizeWiqlChars_eq]
  exact tmGo_quoted (rulesFun wiqlRules) bigG_fix_quoted lit hlit pre post none

set_option maxRecDepth 16000 in
/-- Witness for the amended C7 at a concrete query. -/
theorem claim_C7_amended_witness :
    occursIn (squote :: ("Done".data ++ [squote]))
      (normalizeWiqlChars ("WHERE [State] = ".data ++ (squote :: ("Done".data ++ [squote])) ++ [])) :=
  claim_C7_amended "WHERE [State] = ".data "Done".data [] (by decide)
